import Mathlib

/-!
# Verification of the `os-matrix` matrix core

Shallow embedding of `src/matrix.rs` (and its instantiation at `T = i32`
from `src/main.rs`) together with proofs about the specified behaviour.

Modelling conventions:
* `Vec<T>` is modelled as `List Int` (the CLI instantiates `T = i32`;
  machine-integer effects are modelled explicitly with `wrap32` / `wrap64`
  where the source converts through `isize`, and theorems carry explicit
  `i32`-range hypotheses where the source type constrains values).
* `usize` values (`num_rows`, `num_cols`, lengths) are `Nat`.
* Rust `String` / `&str` text is modelled as `List Char`.
* Fallible Rust operations (`Result`) are modelled with `Except`.
* Rust panics are modelled with `Option`: a function that can panic returns
  `none` exactly on the inputs where the Rust code panics.  In particular
  `slice::chunks(chunk_size)` panics when `chunk_size == 0`, which `rows()`
  reaches whenever `num_cols == 0`; the callers that can reach that panic
  (`dot`, `Display::fmt`, `column_means`) are wrapped in `Option` with the
  corresponding guard, while `transpose` never evaluates `rows()` when
  `num_cols == 0` (its outer loop is empty) and so stays total.
-/

namespace OsMatrix

/-- `slice::chunks` modelled with explicit fuel so that it is structurally
recursive (the fuel is instantiated with the list length, which always
suffices).  `chunksF n fuel l` cuts `l` into pieces of length `n`, the last
piece possibly shorter.  The Rust source panics when `n == 0`; callers in
this development only use `n = 0` behind guards that mirror the panic. -/
def chunksF (n : Nat) : Nat → List Int → List (List Int)
  | _, [] => []
  | 0, _ :: _ => []
  | fuel + 1, x :: xs => (x :: xs).take n :: chunksF n fuel ((x :: xs).drop n)

/-- `slice::chunks(n)` on a list: fuel instantiated with the length. -/
def chunks (n : Nat) (l : List Int) : List (List Int) :=
  chunksF n l.length l

/-- The `Matrix<T>` struct of `src/matrix.rs`, at `T = i32`. -/
structure Matrix where
  num_rows : Nat
  num_cols : Nat
  data : List Int
  deriving DecidableEq, Repr

/-- The representation invariant stated by the spec:
`data.length == num_rows * num_cols`. -/
def Matrix.valid (m : Matrix) : Prop :=
  m.data.length = m.num_rows * m.num_cols

instance (m : Matrix) : Decidable m.valid := by
  unfold Matrix.valid; infer_instance

/-- `Matrix::new()`, i.e. `Default::default()`: the empty matrix. -/
def Matrix.new : Matrix := ⟨0, 0, []⟩

/-- Error message of `from_1d` (`format!("Heterogeneous row length: {}%{}=={}!=0", ..)`). -/
def from1dMsg (len rows modulo : Nat) : String :=
  "Heterogeneous row length: " ++ toString len ++ "%" ++ toString rows ++
    "==" ++ toString modulo ++ "!=0"

/-- `Matrix::from_1d(num_rows, data)`.  Rust computes `data.len() % num_rows`,
which panics when `num_rows == 0` (`% 0`); modelled by `none`. -/
def Matrix.from_1d (num_rows : Nat) (data : List Int) :
    Option (Except String Matrix) :=
  if num_rows = 0 then none
  else
    let modulo := data.length % num_rows
    if modulo ≠ 0 then
      some (.error (from1dMsg data.length num_rows modulo))
    else
      some (.ok ⟨num_rows, data.length / num_rows, data⟩)

/-- `Matrix::from_2d(data)`. -/
def Matrix.from_2d (data : List (List Int)) : Except String Matrix :=
  if data.isEmpty then .ok Matrix.new
  else
    let num_rows := data.length
    let num_cols := (data.headD []).length
    if data.any (fun row => row.length ≠ num_cols) then
      .error "Heterogeneous row length"
    else
      .ok ⟨num_rows, num_cols, data.flatten⟩

/-- `Matrix::is_empty()`. -/
def Matrix.is_empty (m : Matrix) : Bool := m.data.isEmpty

/-- `Matrix::dims()`. -/
def Matrix.dims (m : Matrix) : Nat × Nat := (m.num_rows, m.num_cols)

/-- `Matrix::rows()`: `self.data.chunks(self.num_cols)`.  The Rust call
panics when `num_cols == 0`; every use below either guards that case with
`Option` or (in `transpose`) never evaluates it. -/
def Matrix.rows (m : Matrix) : List (List Int) :=
  chunks m.num_cols m.data

/-- `Matrix::transpose()`: pushes `row[col_index]` for each `col_index`,
for each row, in that nesting order.  `row[col_index]` is in range for valid
matrices; out-of-range access (a Rust panic, unreachable from valid values)
is modelled by the default `0`. -/
def Matrix.transpose (m : Matrix) : Matrix :=
  { num_rows := m.num_cols
    num_cols := m.num_rows
    data := (List.range m.num_cols).flatMap
      (fun col_index => m.rows.map (fun row => row.getD col_index 0)) }

/-- Two's-complement wrap-around of `isize` (64-bit) arithmetic. -/
def wrap64 (z : Int) : Int :=
  (z + 2 ^ 63) % 2 ^ 64 - 2 ^ 63

/-- Two's-complement wrap-around of `i32` (32-bit) arithmetic: the value of
an `i32` addition or multiplication (release-profile semantics; a debug
build panics on overflow instead — either way an overflowing operation does
not produce the exact value), and also the truncation of an `as i32` cast. -/
def wrap32 (z : Int) : Int :=
  (z + 2 ^ 31) % 2 ^ 32 - 2 ^ 31

/-- `Sum for i32`: a fold of wrapping 32-bit additions starting from 0. -/
def i32Sum (l : List Int) : Int :=
  l.foldl (fun acc x => wrap32 (acc + x)) 0

/-- Error message of `dot` (`format!("Incompatible dimensions ({} != {})", ..)`). -/
def dotMsg (lc rr : Nat) : String :=
  "Incompatible dimensions (" ++ toString lc ++ " != " ++ toString rr ++ ")"

/-- The inner product `m1_row.iter().zip(m2_row).map(|(a,b)| a*b).sum()` at
`T = i32`: each product and each addition of the sum wraps at 32 bits. -/
def sumProd (as bs : List Int) : Int :=
  i32Sum ((as.zip bs).map (fun p => wrap32 (p.1 * p.2)))

/-- `Matrix::dot(self, rhs)`.  After the dimension check the Rust code
evaluates `self.rows()`, which panics when `self.num_cols == 0`
(`chunks(0)`); that panic is modelled by `none`. -/
def Matrix.dot (lhs rhs : Matrix) : Option (Except String Matrix) :=
  if lhs.num_cols ≠ rhs.num_rows then
    some (.error (dotMsg lhs.num_cols rhs.num_rows))
  else if lhs.num_cols = 0 then none
  else
    some (.ok
      { num_rows := lhs.num_rows
        num_cols := rhs.num_cols
        data := lhs.rows.flatMap
          (fun m1_row => rhs.transpose.rows.map (fun m2_row => sumProd m1_row m2_row)) })

/-- Error message of `Add` (`format!("Incompatible dimensions ({}x{} vs. {}x{})", ..)`). -/
def addMsg (r1 c1 r2 c2 : Nat) : String :=
  "Incompatible dimensions (" ++ toString r1 ++ "x" ++ toString c1 ++
    " vs. " ++ toString r2 ++ "x" ++ toString c2 ++ ")"

/-- `impl Add for Matrix<T>` at `T = i32`: elementwise wrapping 32-bit sum
of the zipped data vectors. -/
def Matrix.add (lhs rhs : Matrix) : Except String Matrix :=
  if lhs.num_rows ≠ rhs.num_rows ∨ lhs.num_cols ≠ rhs.num_cols then
    .error (addMsg lhs.num_rows lhs.num_cols rhs.num_rows rhs.num_cols)
  else
    .ok
      { num_rows := lhs.num_rows
        num_cols := lhs.num_cols
        data := (lhs.data.zip rhs.data).map (fun p => wrap32 (p.1 + p.2)) }

/-- The `isize` accumulation `row.iter().map(as isize).sum::<isize>()`:
the `i32 -> isize` cast is exact, each addition wraps at 64 bits
(release-profile semantics; a debug build would panic on overflow instead —
either way an overflowing sum does not produce the exact value). -/
def isizeSum (l : List Int) : Int :=
  l.foldl (fun acc x => wrap64 (acc + x)) 0

/-- `Matrix::column_means()` at `T = i32`: transposes, then per resulting row
computes `(sum as isize values) / row.len()` and casts the quotient back with
`as i32`.  `rows()` on the transpose is `chunks(self.num_rows)`, which panics
when `num_rows == 0`; modelled by `none`. -/
def Matrix.column_means (m : Matrix) : Option (List Int) :=
  if m.num_rows = 0 then none
  else
    some (m.transpose.rows.map
      (fun row => wrap32 ((isizeSum row).tdiv (row.length : Int))))

/-- Column `j` of a matrix read from the row-major data: the mathematical
notion "that column's elements" used by the column-mean claims. -/
def columnOf (m : Matrix) (j : Nat) : List Int :=
  (List.range m.num_rows).map (fun r => m.data.getD (r * m.num_cols + j) 0)

/-! ## Text layer: `Display` and `FromStr` (modelled over `List Char`) -/

/-- The code points of the Unicode `White_Space` property, which is what
Rust's `char::is_whitespace` tests. -/
def wsCodes : List Nat :=
  [0x09, 0x0A, 0x0B, 0x0C, 0x0D, 0x20, 0x85, 0xA0, 0x1680,
   0x2000, 0x2001, 0x2002, 0x2003, 0x2004, 0x2005, 0x2006, 0x2007,
   0x2008, 0x2009, 0x200A, 0x2028, 0x2029, 0x202F, 0x205F, 0x3000]

/-- `char::is_whitespace`. -/
def isWs (c : Char) : Bool := wsCodes.contains c.toNat

/-- `str::split` with a `char`-predicate pattern: splits at every matching
character, keeping empty pieces between adjacent separators. -/
def splitP (p : Char → Bool) : List Char → List (List Char)
  | [] => [[]]
  | c :: cs =>
    if p c then [] :: splitP p cs
    else (c :: (splitP p cs).headD []) :: (splitP p cs).tail

/-- `line.split(char::is_whitespace).filter(|word| !word.is_empty())`:
the whitespace-separated tokens of a line. -/
def words (line : List Char) : List (List Char) :=
  (splitP isWs line).filter (fun w => w ≠ [])

/-- The `\r`-stripping Rust's `str::lines` applies to a `\n`-terminated line. -/
def stripCr (l : List Char) : List Char :=
  if l.getLast? = some '\r' then l.dropLast else l

/-- `str::lines`, fuelled for structural recursion (fuel := length): splits at
each `'\n'`, strips one `'\r'` before each `'\n'`, and does not produce a
final empty line for a trailing `'\n'`. -/
def rustLinesF : Nat → List Char → List (List Char)
  | _, [] => []
  | 0, _ :: _ => []
  | fuel + 1, c :: s =>
    if ((c :: s).dropWhile (fun ch => ch != '\n')) = [] then
      [(c :: s).takeWhile (fun ch => ch != '\n')]
    else
      stripCr ((c :: s).takeWhile (fun ch => ch != '\n')) ::
        rustLinesF fuel (((c :: s).dropWhile (fun ch => ch != '\n')).tail)

/-- `str::lines` on a character list. -/
def rustLines (s : List Char) : List (List Char) :=
  rustLinesF s.length s

/-- Numeric value of an ASCII digit character. -/
def charVal (c : Char) : Nat := c.toNat - 48

/-- ASCII digit test (`0`–`9`), the only digits `i32::from_str` accepts. -/
def isDigitChar (c : Char) : Bool := 48 ≤ c.toNat ∧ c.toNat ≤ 57

/-- The digit block of `from_str_radix`: at least one character, all ASCII
digits, value read most-significant first. -/
def parseNat (cs : List Char) : Option Nat :=
  if cs = [] then none
  else if cs.all isDigitChar then
    some (cs.foldl (fun a c => 10 * a + charVal c) 0)
  else none

/-- `i32::from_str`: optional single `+`/`-` sign, then one or more ASCII
digits, rejecting values outside `[-2^31, 2^31 - 1]` (Rust's checked
accumulation returns an overflow error). -/
def parseI32 : List Char → Option Int
  | [] => none
  | c :: rest =>
    if c = '-' then
      (parseNat rest).bind (fun n => if (n : Int) ≤ 2 ^ 31 then some (-(n : Int)) else none)
    else if c = '+' then
      (parseNat rest).bind (fun n => if (n : Int) ≤ 2 ^ 31 - 1 then some (n : Int) else none)
    else
      (parseNat (c :: rest)).bind (fun n => if (n : Int) ≤ 2 ^ 31 - 1 then some (n : Int) else none)

/-- The error type of `<Matrix as FromStr>::from_str`
(`Box<dyn Error>`): either a numeric parse failure of one token
(`<i32 as FromStr>::Err`) or the `Error` produced by `from_2d`. -/
inductive FromStrErr where
  | parseErr (tok : List Char)
  | dimErr (msg : String)
  deriving DecidableEq, Repr

/-- `str::parse::<i32>` on one token, as used inside `from_str`. -/
def parseTok (t : List Char) : Except FromStrErr Int :=
  match parseI32 t with
  | some v => .ok v
  | none => .error (.parseErr t)

/-- `Iterator::collect::<Result<_, _>>`: first error wins, otherwise the
list of successes in order. -/
def collectE (f : α → Except ε β) : List α → Except ε (List β)
  | [] => .ok []
  | x :: xs =>
    match f x with
    | .error e => .error e
    | .ok y =>
      match collectE f xs with
      | .error e => .error e
      | .ok ys => .ok (y :: ys)

/-- `<Matrix<i32> as FromStr>::from_str`: split into lines, tokenize each
line, parse every token, then `from_2d`. -/
def fromStr (s : List Char) : Except FromStrErr Matrix :=
  match collectE (fun line => collectE parseTok (words line)) (rustLines s) with
  | .error e => .error e
  | .ok data =>
    match Matrix.from_2d data with
    | .error msg => .error (.dimErr msg)
    | .ok m => .ok m

/-- Little-endian decimal digits, fuelled for structural recursion
(fuel := the number itself, which bounds the digit count). -/
def digitsF : Nat → Nat → List Nat
  | 0, _ => []
  | fuel + 1, n => if n = 0 then [] else n % 10 :: digitsF fuel (n / 10)

/-- Decimal rendering of a `Nat` (`"0"` for zero), as `to_string` does. -/
def natStr (n : Nat) : List Char :=
  if n = 0 then ['0'] else ((digitsF n n).map Nat.digitChar).reverse

/-- `<i32 as ToString>::to_string`: minimal decimal form with a `-` sign for
negatives. -/
def intToStr (x : Int) : List Char :=
  if x < 0 then '-' :: natStr x.natAbs else natStr x.natAbs

/-- `slice::join("\t")` over the rendered elements of one row. -/
def joinSep : List (List Char) → List Char
  | [] => []
  | [t] => t
  | t₁ :: t₂ :: ts => t₁ ++ '\t' :: joinSep (t₂ :: ts)

/-- The character stream `<Matrix as Display>::fmt` writes: each row's
elements joined by `'\t'`, a `'\n'` after every row. -/
def fmtData (m : Matrix) : List Char :=
  (m.rows.map (fun row => joinSep (row.map intToStr) ++ ['\n'])).flatten

/-- `Display` for `Matrix` (`to_text`): `fmt` starts with `self.rows()`,
i.e. `chunks(num_cols)`, which panics when `num_cols == 0` (that covers the
empty matrix); modelled by `none`. -/
def toText (m : Matrix) : Option (List Char) :=
  if m.num_cols = 0 then none else some (fmtData m)

/-! ## List index and chunking lemmas -/

theorem getD_drop {α : Type} (l : List α) (a i : Nat) (d : α) :
    (l.drop a).getD i d = l.getD (a + i) d := by
  simp [List.getD_eq_getElem?_getD, List.getElem?_drop]

theorem getD_take {α : Type} (l : List α) {n i : Nat} (h : i < n) (d : α) :
    (l.take n).getD i d = l.getD i d := by
  simp [List.getD_eq_getElem?_getD, List.getElem?_take, h]

theorem getD_append_left {α : Type} {l₁ : List α} (l₂ : List α) {i : Nat}
    (h : i < l₁.length) (d : α) : (l₁ ++ l₂).getD i d = l₁.getD i d := by
  simp [List.getD_eq_getElem?_getD, List.getElem?_append, h]

theorem getD_append_right {α : Type} (l₁ l₂ : List α) (i : Nat) (d : α) :
    (l₁ ++ l₂).getD (l₁.length + i) d = l₂.getD i d := by
  simp [List.getD_eq_getElem?_getD, List.getElem?_append_right,
    Nat.add_sub_cancel_left, Nat.le_add_right]

theorem getD_map_range {α : Type} (f : Nat → α) {i n : Nat} (h : i < n) (d : α) :
    ((List.range n).map f).getD i d = f i := by
  simp [List.getD_eq_getElem?_getD, List.getElem?_map, List.getElem?_range h]

theorem getD_map {α β : Type} (g : α → β) {l : List α} {i : Nat}
    (h : i < l.length) (d : β) (e : α) : (l.map g).getD i d = g (l.getD i e) := by
  simp [List.getD_eq_getElem?_getD, List.getElem?_map, List.getElem?_eq_getElem h,
    List.getD_eq_getElem l e h]

/-- `chunksF` on a list of length `R * n` returns the `R` successive slices
of length `n`. -/
theorem chunksF_eq_map {n : Nat} (hn : 0 < n) :
    ∀ (R : Nat) (fuel : Nat) (d : List Int), d.length = R * n → d.length ≤ fuel →
      chunksF n fuel d = (List.range R).map (fun r => (d.drop (r * n)).take n) := by
  intro R
  induction R with
  | zero =>
    intro fuel d hlen _
    have : d = [] := List.eq_nil_of_length_eq_zero (by omega)
    subst this
    cases fuel <;> simp [chunksF]
  | succ R ih =>
    intro fuel d hlen hfuel
    have hd : d ≠ [] := by
      intro h; subst h; simp at hlen; omega
    obtain ⟨x, xs, rfl⟩ := List.exists_cons_of_ne_nil hd
    obtain ⟨f, rfl⟩ : ∃ f, fuel = f + 1 := by
      cases fuel with
      | zero => simp at hfuel
      | succ f => exact ⟨f, rfl⟩
    have hdroplen : ((x :: xs).drop n).length = R * n := by
      rw [List.length_drop, hlen, Nat.succ_mul]; omega
    have hdropfuel : ((x :: xs).drop n).length ≤ f := by
      rw [List.length_drop]; omega
    rw [chunksF, ih f _ hdroplen hdropfuel, List.range_succ_eq_map]
    rw [List.map_cons, List.map_map]
    congr 1
    · simp
    · apply List.map_congr_left
      intro r _
      simp only [Function.comp_apply, List.drop_drop, Nat.succ_mul, Nat.add_comm]

theorem chunks_eq_map {n : Nat} (hn : 0 < n) (R : Nat) (d : List Int)
    (hlen : d.length = R * n) :
    chunks n d = (List.range R).map (fun r => (d.drop (r * n)).take n) :=
  chunksF_eq_map hn R d.length d hlen le_rfl

theorem chunks_length {n : Nat} (hn : 0 < n) (R : Nat) (d : List Int)
    (hlen : d.length = R * n) : (chunks n d).length = R := by
  rw [chunks_eq_map hn R d hlen]; simp

theorem chunks_getD {n : Nat} (hn : 0 < n) {R : Nat} (d : List Int)
    (hlen : d.length = R * n) {r : Nat} (hr : r < R) :
    (chunks n d).getD r [] = (d.drop (r * n)).take n := by
  rw [chunks_eq_map hn R d hlen]
  exact getD_map_range _ hr []

theorem chunks_row_length {n : Nat} (hn : 0 < n) {R : Nat} (d : List Int)
    (hlen : d.length = R * n) {r : Nat} (hr : r < R) :
    ((chunks n d).getD r []).length = n := by
  rw [chunks_getD hn d hlen hr]
  simp only [List.length_take, List.length_drop]
  have h1 : (r + 1) * n ≤ R * n := Nat.mul_le_mul_right n hr
  rw [Nat.succ_mul] at h1
  omega

/-- Concatenating the chunks gives back the original list. -/
theorem chunksF_flatten {n : Nat} (hn : 0 < n) :
    ∀ (fuel : Nat) (d : List Int), d.length ≤ fuel → (chunksF n fuel d).flatten = d := by
  intro fuel
  induction fuel with
  | zero =>
    intro d hd
    have : d = [] := List.eq_nil_of_length_eq_zero (by omega)
    subst this; simp [chunksF]
  | succ f ih =>
    intro d hd
    cases d with
    | nil => simp [chunksF]
    | cons x xs =>
      rw [chunksF, List.flatten_cons,
        ih _ (by rw [List.length_drop]; simp only [List.length_cons] at hd ⊢; omega)]
      exact List.take_append_drop n (x :: xs)

theorem chunks_flatten {n : Nat} (hn : 0 < n) (d : List Int) :
    (chunks n d).flatten = d :=
  chunksF_flatten hn d.length d le_rfl

/-- Cutting a concatenation of equal-length blocks recovers the blocks. -/
theorem chunksF_flatten_const {n : Nat} (hn : 0 < n) :
    ∀ (blocks : List (List Int)) (fuel : Nat),
      (∀ b ∈ blocks, b.length = n) → blocks.flatten.length ≤ fuel →
      chunksF n fuel blocks.flatten = blocks := by
  intro blocks
  induction blocks with
  | nil => intro fuel _ _; cases fuel <;> simp [chunksF]
  | cons b bs ih =>
    intro fuel hlen hfuel
    have hb : b.length = n := hlen b (by simp)
    have hbne : b ≠ [] := by intro h; subst h; simp at hb; omega
    have hflat : (b :: bs).flatten = b ++ bs.flatten := List.flatten_cons ..
    obtain ⟨x, xs, hx⟩ := List.exists_cons_of_ne_nil hbne
    obtain ⟨f, rfl⟩ : ∃ f, fuel = f + 1 := by
      cases fuel with
      | zero =>
        exfalso
        rw [hflat] at hfuel
        simp [hx] at hfuel
      | succ f => exact ⟨f, rfl⟩
    have hcons : (b :: bs).flatten = x :: (xs ++ bs.flatten) := by
      rw [hflat, hx]; rfl
    have hba : x :: (xs ++ bs.flatten) = b ++ bs.flatten := by rw [hx]; rfl
    have ht : (b ++ bs.flatten).take n = b := by rw [← hb]; exact List.take_left b _
    have hdr : (b ++ bs.flatten).drop n = bs.flatten := by rw [← hb]; exact List.drop_left b _
    have hfuel' : bs.flatten.length ≤ f := by
      rw [hflat] at hfuel
      rw [List.length_append, hb] at hfuel
      omega
    rw [hcons, chunksF, hba, ht, hdr, ih f (fun c hc => hlen c (by simp [hc])) hfuel']

theorem chunks_flatten_const {n : Nat} (hn : 0 < n) (blocks : List (List Int))
    (hlen : ∀ b ∈ blocks, b.length = n) :
    chunks n blocks.flatten = blocks :=
  chunksF_flatten_const hn blocks blocks.flatten.length hlen le_rfl

/-- Length of a concatenation of constant-length blocks. -/
theorem length_flatten_const {α : Type} {k : Nat} :
    ∀ (L : List (List α)), (∀ l ∈ L, l.length = k) →
      L.flatten.length = L.length * k := by
  intro L
  induction L with
  | nil => simp
  | cons b bs ih =>
    intro h
    simp only [List.flatten_cons, List.length_append, List.length_cons,
      h b (by simp), ih (fun c hc => h c (by simp [hc]))]
    ring

/-- Index arithmetic into a concatenation of constant-length blocks. -/
theorem flatten_getD_const {α : Type} {k : Nat} (d : α) :
    ∀ (L : List (List α)) (i j : Nat), (∀ l ∈ L, l.length = k) →
      i < L.length → j < k →
      L.flatten.getD (i * k + j) d = (L.getD i []).getD j d := by
  intro L
  induction L with
  | nil => intro i j _ hi _; simp at hi
  | cons b bs ih =>
    intro i j hlen hi hj
    cases i with
    | zero =>
      simp only [List.flatten_cons, Nat.zero_mul, Nat.zero_add, List.getD_cons_zero]
      exact getD_append_left _ (by rw [hlen b (by simp)]; exact hj) d
    | succ i =>
      have hb : b.length = k := hlen b (by simp)
      have : (i + 1) * k + j = b.length + (i * k + j) := by rw [hb]; ring
      rw [List.flatten_cons, this, getD_append_right, List.getD_cons_succ]
      exact ih i j (fun c hc => hlen c (by simp [hc])) (by simpa using hi) hj

/-! ## Facts about `rows` and `transpose` -/

theorem Matrix.rows_length {m : Matrix} (hv : m.valid) (hc : 0 < m.num_cols) :
    m.rows.length = m.num_rows :=
  chunks_length hc m.num_rows m.data hv

theorem Matrix.rows_getD {m : Matrix} (hv : m.valid) (hc : 0 < m.num_cols)
    {r : Nat} (hr : r < m.num_rows) :
    m.rows.getD r [] = (m.data.drop (r * m.num_cols)).take m.num_cols :=
  chunks_getD hc m.data hv hr

theorem Matrix.rows_getD_length {m : Matrix} (hv : m.valid) (hc : 0 < m.num_cols)
    {r : Nat} (hr : r < m.num_rows) : (m.rows.getD r []).length = m.num_cols :=
  chunks_row_length hc m.data hv hr

theorem Matrix.transpose_num_rows (m : Matrix) : m.transpose.num_rows = m.num_cols := rfl

theorem Matrix.transpose_num_cols (m : Matrix) : m.transpose.num_cols = m.num_rows := rfl

theorem Matrix.transpose_data_length {m : Matrix} (hv : m.valid) :
    m.transpose.data.length = m.num_cols * m.num_rows := by
  rcases Nat.eq_zero_or_pos m.num_cols with hc | hc
  · simp [Matrix.transpose, hc]
  · show ((List.range m.num_cols).flatMap _).length = _
    rw [List.flatMap_def,
      length_flatten_const (k := m.num_rows) _ ?_, List.length_map, List.length_range]
    intro l hl
    rw [List.mem_map] at hl
    obtain ⟨c, _, rfl⟩ := hl
    rw [List.length_map]
    exact Matrix.rows_length hv hc

theorem Matrix.transpose_valid {m : Matrix} (hv : m.valid) : m.transpose.valid := by
  show m.transpose.data.length = _
  rw [Matrix.transpose_data_length hv, Matrix.transpose_num_rows, Matrix.transpose_num_cols]

theorem Matrix.transpose_getD {m : Matrix} (hv : m.valid) {r c : Nat}
    (hr : r < m.num_rows) (hc : c < m.num_cols) :
    m.transpose.data.getD (c * m.num_rows + r) 0 =
      m.data.getD (r * m.num_cols + c) 0 := by
  have hCpos : 0 < m.num_cols := lt_of_le_of_lt (Nat.zero_le c) hc
  show ((List.range m.num_cols).flatMap
      (fun ci => m.rows.map (fun row => row.getD ci 0))).getD _ 0 = _
  rw [List.flatMap_def]
  rw [flatten_getD_const (k := m.num_rows) 0 _ c r ?lens (by simpa using hc) hr]
  case lens =>
    intro l hl
    rw [List.mem_map] at hl
    obtain ⟨ci, _, rfl⟩ := hl
    rw [List.length_map]
    exact Matrix.rows_length hv hCpos
  rw [getD_map_range _ hc []]
  rw [getD_map _ (by rw [Matrix.rows_length hv hCpos]; exact hr) 0 []]
  rw [Matrix.rows_getD hv hCpos hr, getD_take _ hc, getD_drop]

/-- Double transpose is the identity on valid matrices. -/
theorem Matrix.transpose_transpose {m : Matrix} (hv : m.valid) :
    m.transpose.transpose = m := by
  have hvt : m.transpose.valid := Matrix.transpose_valid hv
  have hlen : m.transpose.transpose.data.length = m.data.length := by
    rw [Matrix.transpose_data_length hvt, Matrix.transpose_num_rows,
      Matrix.transpose_num_cols, hv, Nat.mul_comm]
  rcases m with ⟨R, C, data⟩
  simp only [Matrix.valid] at hv
  have hdata : (Matrix.mk R C data).transpose.transpose.data = data := by
    rcases Nat.eq_zero_or_pos C with hC | hC
    · have h0 : data.length = 0 := by rw [hv, hC]; ring
      have h1 : (Matrix.mk R C data).transpose.transpose.data = [] :=
        List.eq_nil_of_length_eq_zero (by rw [hlen]; exact h0)
      rw [h1, List.eq_nil_of_length_eq_zero h0]
    · apply List.ext_getElem (by exact hlen)
      intro i h₁ h₂
      have hi : i < R * C := by rw [← hv]; exact h₂
      have hr : i / C < R := Nat.div_lt_of_lt_mul (by rw [Nat.mul_comm]; exact hi)
      have hcm : i % C < C := Nat.mod_lt _ hC
      have hidx : i = i / C * C + i % C := by
        rw [Nat.mul_comm]
        exact (Nat.div_add_mod i C).symm
      rw [← List.getD_eq_getElem _ 0 h₁, ← List.getD_eq_getElem _ 0 h₂, hidx]
      have step1 := Matrix.transpose_getD (m := (Matrix.mk R C data).transpose) hvt
        (r := i % C) (c := i / C) hcm hr
      have step2 := Matrix.transpose_getD (m := Matrix.mk R C data) hv hr hcm
      simp only [Matrix.transpose_num_rows, Matrix.transpose_num_cols] at step1
      rw [step1, step2]
  exact congrArg (Matrix.mk R C) hdata

/-! ## Wrapping `i32` arithmetic, elementwise sums and inner products -/

theorem wrap32_add_left (a b : Int) : wrap32 (wrap32 a + b) = wrap32 (a + b) := by
  unfold wrap32
  have h1 : (a + 2 ^ 31) % 2 ^ 32 - 2 ^ 31 + b + 2 ^ 31 = (a + 2 ^ 31) % 2 ^ 32 + b := by
    ring
  rw [h1, Int.emod_add_emod]
  have h2 : a + 2 ^ 31 + b = a + b + 2 ^ 31 := by ring
  rw [h2]

theorem wrap32_add_right (a b : Int) : wrap32 (a + wrap32 b) = wrap32 (a + b) := by
  rw [add_comm a (wrap32 b), wrap32_add_left, add_comm]

theorem wrap32_eq_self {z : Int} (h1 : -(2 ^ 31) ≤ z) (h2 : z ≤ 2 ^ 31 - 1) :
    wrap32 z = z := by
  unfold wrap32
  rw [Int.emod_eq_of_lt (by omega) (by omega)]
  ring

theorem i32Sum_eq (l : List Int) : i32Sum l = wrap32 l.sum := by
  have key : ∀ (l : List Int) (a : Int),
      l.foldl (fun acc x => wrap32 (acc + x)) (wrap32 a) = wrap32 (a + l.sum) := by
    intro l
    induction l with
    | nil => intro a; simp
    | cons x xs ih =>
      intro a
      rw [List.foldl_cons, wrap32_add_left, ih (a + x), List.sum_cons]
      have : a + x + xs.sum = a + (x + xs.sum) := by ring
      rw [this]
  have h0 : wrap32 0 = 0 := by decide
  unfold i32Sum
  rw [← h0, key l 0, zero_add]

/-- Wrapping each summand first does not change the wrapped total. -/
theorem sum_map_wrap32 : ∀ ps : List Int, wrap32 ((ps.map wrap32).sum) = wrap32 ps.sum := by
  intro ps
  induction ps with
  | nil => rfl
  | cons p ps ih =>
    rw [List.map_cons, List.sum_cons, List.sum_cons]
    calc wrap32 (wrap32 p + (ps.map wrap32).sum)
        = wrap32 (p + (ps.map wrap32).sum) := wrap32_add_left ..
      _ = wrap32 (p + wrap32 ((ps.map wrap32).sum)) := (wrap32_add_right ..).symm
      _ = wrap32 (p + wrap32 ps.sum) := by rw [ih]
      _ = wrap32 (p + ps.sum) := wrap32_add_right ..

theorem zip_map_add_getD :
    ∀ (as bs : List Int) (i : Nat), i < as.length → i < bs.length →
      ((as.zip bs).map (fun p => wrap32 (p.1 + p.2))).getD i 0 =
        wrap32 (as.getD i 0 + bs.getD i 0) := by
  intro as
  induction as with
  | nil => intro bs i hi _; simp at hi
  | cons a as ih =>
    intro bs i hi hbi
    cases bs with
    | nil => simp at hbi
    | cons b bs =>
      cases i with
      | zero => simp
      | succ i =>
        simp only [List.zip_cons_cons, List.map_cons, List.getD_cons_succ]
        exact ih bs i (by simpa using hi) (by simpa using hbi)

theorem zip_prod_sum_eq_range :
    ∀ (n : Nat) (as bs : List Int), as.length = n → bs.length = n →
      ((as.zip bs).map (fun p => p.1 * p.2)).sum =
        ((List.range n).map (fun k => as.getD k 0 * bs.getD k 0)).sum := by
  intro n
  induction n with
  | zero =>
    intro as bs ha hb
    rw [List.eq_nil_of_length_eq_zero ha, List.eq_nil_of_length_eq_zero hb]
    simp
  | succ n ih =>
    intro as bs ha hb
    obtain ⟨a, as', rfl⟩ := List.exists_cons_of_ne_nil (l := as)
      (by intro h; subst h; simp at ha)
    obtain ⟨b, bs', rfl⟩ := List.exists_cons_of_ne_nil (l := bs)
      (by intro h; subst h; simp at hb)
    have ha' : as'.length = n := by simpa using ha
    have hb' : bs'.length = n := by simpa using hb
    rw [List.range_succ_eq_map, List.map_cons, List.map_map, List.sum_cons]
    simp only [List.getD_cons_zero, List.zip_cons_cons, List.map_cons, List.sum_cons]
    rw [ih as' bs' ha' hb']
    congr 1

/-- `sumProd` is the 32-bit wrap of the exact inner product: the individual
wraps of products and partial sums cancel modulo `2^32`. -/
theorem sumProd_eq_range :
    ∀ (n : Nat) (as bs : List Int), as.length = n → bs.length = n →
      sumProd as bs =
        wrap32 (((List.range n).map (fun k => as.getD k 0 * bs.getD k 0)).sum) := by
  intro n as bs ha hb
  unfold sumProd
  have h1 : (as.zip bs).map (fun p => wrap32 (p.1 * p.2)) =
      ((as.zip bs).map (fun p => p.1 * p.2)).map wrap32 := by
    rw [List.map_map]
    rfl
  rw [h1, i32Sum_eq, sum_map_wrap32, zip_prod_sum_eq_range n as bs ha hb]

/-! ## Validity of the constructors and operations (claim C1 support) -/

theorem from_1d_valid {r : Nat} {d : List Int} {m : Matrix}
    (h : Matrix.from_1d r d = some (.ok m)) : m.valid := by
  unfold Matrix.from_1d at h
  split at h
  · exact absurd h (by simp)
  · replace h :
      (if d.length % r ≠ 0 then
        some (Except.error (from1dMsg d.length r (d.length % r)))
      else some (Except.ok ⟨r, d.length / r, d⟩)) = some (.ok m) := h
    split at h
    · exact absurd h (by simp)
    · simp only [Option.some.injEq, Except.ok.injEq] at h
      subst h
      show d.length = r * (d.length / r)
      rename_i hmod
      push_neg at hmod
      exact (Nat.mul_div_cancel' (Nat.dvd_of_mod_eq_zero hmod)).symm

theorem from_2d_valid {rows : List (List Int)} {m : Matrix}
    (h : Matrix.from_2d rows = .ok m) : m.valid := by
  unfold Matrix.from_2d at h
  split at h
  · simp only [Except.ok.injEq] at h
    subst h
    show (0 : Nat) = 0 * 0
    simp
  · replace h :
      (if rows.any (fun row => row.length ≠ (rows.headD []).length) then
        (Except.error "Heterogeneous row length" : Except String Matrix)
      else .ok ⟨rows.length, (rows.headD []).length, rows.flatten⟩) = .ok m := h
    split at h
    · exact absurd h (by simp)
    · simp only [Except.ok.injEq] at h
      subst h
      show rows.flatten.length = rows.length * (rows.headD []).length
      rename_i hany
      apply length_flatten_const
      intro l hl
      simp only [List.any_eq_true, not_exists, not_and, Bool.not_eq_true] at hany
      have := hany l hl
      simpa using this

theorem fromStr_valid {s : List Char} {m : Matrix}
    (h : fromStr s = .ok m) : m.valid := by
  unfold fromStr at h
  split at h
  · exact absurd h (by simp)
  · split at h
    · exact absurd h (by simp)
    · simp only [Except.ok.injEq] at h
      subst h
      rename_i hfrom
      exact from_2d_valid hfrom

theorem add_valid {a b m : Matrix} (hva : a.valid) (hvb : b.valid)
    (h : Matrix.add a b = .ok m) : m.valid := by
  unfold Matrix.add at h
  split at h
  · exact absurd h (by simp)
  · simp only [Except.ok.injEq] at h
    subst h
    rename_i hdims
    push_neg at hdims
    show ((a.data.zip b.data).map _).length = a.num_rows * a.num_cols
    rw [List.length_map, List.length_zip, hva, hvb, hdims.1, hdims.2]
    simp

theorem dot_valid {a b m : Matrix} (hva : a.valid) (hvb : b.valid)
    (h : Matrix.dot a b = some (.ok m)) : m.valid := by
  unfold Matrix.dot at h
  split at h
  · exact absurd h (by simp)
  · split at h
    · exact absurd h (by simp)
    · simp only [Option.some.injEq, Except.ok.injEq] at h
      subst h
      rename_i hdim hkz
      push_neg at hdim
      have hk : 0 < a.num_cols := Nat.pos_of_ne_zero hkz
      have hkb : 0 < b.transpose.num_cols := by
        rw [Matrix.transpose_num_cols, ← hdim]; exact hk
      show (a.rows.flatMap _).length = a.num_rows * b.num_cols
      rw [List.flatMap_def,
        length_flatten_const (k := b.num_cols) _ ?_, List.length_map,
        Matrix.rows_length hva hk]
      intro l hl
      rw [List.mem_map] at hl
      obtain ⟨r1, _, rfl⟩ := hl
      rw [List.length_map]
      show b.transpose.rows.length = b.num_cols
      rw [Matrix.rows_length (Matrix.transpose_valid hvb) hkb, Matrix.transpose_num_rows]

/-- The element at `(i, j)` of the data vector `dot` builds. -/
theorem dot_getD {a b : Matrix} (hva : a.valid) (hvb : b.valid)
    (hdim : a.num_cols = b.num_rows) (hk : 0 < a.num_cols) {i j : Nat}
    (hi : i < a.num_rows) (hj : j < b.num_cols) :
    (a.rows.flatMap
        (fun m1_row => b.transpose.rows.map (fun m2_row => sumProd m1_row m2_row))).getD
      (i * b.num_cols + j) 0 =
    wrap32 (((List.range a.num_cols).map
      (fun k => a.data.getD (i * a.num_cols + k) 0 *
                b.data.getD (k * b.num_cols + j) 0)).sum) := by
  have hvbt : b.transpose.valid := Matrix.transpose_valid hvb
  have hbtc : b.transpose.num_cols = a.num_cols := by
    rw [Matrix.transpose_num_cols, hdim]
  have hbtcpos : 0 < b.transpose.num_cols := by rw [hbtc]; exact hk
  have hj' : j < b.transpose.num_rows := by rw [Matrix.transpose_num_rows]; exact hj
  have hrowsa : a.rows.length = a.num_rows := Matrix.rows_length hva hk
  have hrowsbt : b.transpose.rows.length = b.num_cols := by
    rw [Matrix.rows_length hvbt hbtcpos, Matrix.transpose_num_rows]
  rw [List.flatMap_def]
  rw [flatten_getD_const (k := b.num_cols) 0 _ i j ?lens
    (by rw [List.length_map, hrowsa]; exact hi) hj]
  case lens =>
    intro l hl
    rw [List.mem_map] at hl
    obtain ⟨r1, _, rfl⟩ := hl
    rw [List.length_map]
    exact hrowsbt
  rw [getD_map _ (by rw [hrowsa]; exact hi) ([] : List Int) []]
  rw [getD_map _ (by rw [hrowsbt]; exact hj) 0 []]
  have hlen1 : (a.rows.getD i []).length = a.num_cols :=
    Matrix.rows_getD_length hva hk hi
  have hlen2 : (b.transpose.rows.getD j []).length = a.num_cols := by
    rw [Matrix.rows_getD_length hvbt hbtcpos hj', hbtc]
  rw [sumProd_eq_range a.num_cols _ _ hlen1 hlen2]
  apply congrArg
  apply congrArg
  apply List.map_congr_left
  intro k hkmem
  rw [List.mem_range] at hkmem
  have h1 : (a.rows.getD i []).getD k 0 = a.data.getD (i * a.num_cols + k) 0 := by
    rw [Matrix.rows_getD hva hk hi, getD_take _ hkmem, getD_drop]
  have h2 : (b.transpose.rows.getD j []).getD k 0 = b.data.getD (k * b.num_cols + j) 0 := by
    rw [Matrix.rows_getD hvbt hbtcpos hj', getD_take _ (by rw [hbtc]; exact hkmem), getD_drop]
    have := Matrix.transpose_getD hvb (r := k) (c := j) (by rw [← hdim]; exact hkmem) hj
    rw [← this, Matrix.transpose_num_cols]
  rw [h1, h2]

/-! ## Claims C1 – C5 -/

/-- **C1.** Every `Matrix` produced by the public constructors (`new`,
successful `from_1d`, successful `from_2d`, successful parse) and by the
operations (`transpose`, successful `add`, successful `dot`, applied to
valid matrices) satisfies `data.length = num_rows * num_cols`; the empty
matrix has `num_rows = 0`, `num_cols = 0` and empty `data`. -/
theorem claim_C1 :
    (Matrix.new.num_rows = 0 ∧ Matrix.new.num_cols = 0 ∧
      Matrix.new.data = [] ∧ Matrix.new.valid) ∧
    (∀ (r : Nat) (d : List Int) (m : Matrix),
      Matrix.from_1d r d = some (.ok m) → m.valid) ∧
    (∀ (rows : List (List Int)) (m : Matrix),
      Matrix.from_2d rows = .ok m → m.valid) ∧
    (∀ (s : List Char) (m : Matrix), fromStr s = .ok m → m.valid) ∧
    (∀ m : Matrix, m.valid → m.transpose.valid) ∧
    (∀ a b m : Matrix, a.valid → b.valid → Matrix.add a b = .ok m → m.valid) ∧
    (∀ a b m : Matrix, a.valid → b.valid → Matrix.dot a b = some (.ok m) → m.valid) :=
  ⟨⟨rfl, rfl, rfl, by decide⟩,
   fun _ _ _ h => from_1d_valid h,
   fun _ _ h => from_2d_valid h,
   fun _ _ h => fromStr_valid h,
   fun _ hv => Matrix.transpose_valid hv,
   fun _ _ _ hva hvb h => add_valid hva hvb h,
   fun _ _ _ hva hvb h => dot_valid hva hvb h⟩

/-- Witness for C1 at concrete inputs: a successful `from_1d`, a transpose,
an addition and a multiplication all yield valid matrices. -/
theorem claim_C1_witness :
    (Matrix.mk 2 2 [1, 2, 3, 4]).valid ∧
    (Matrix.mk 2 3 [1, 2, 3, 4, 5, 6]).transpose.valid ∧
    (Matrix.mk 2 2 [6, 8, 10, 12]).valid ∧
    (Matrix.mk 2 2 [19, 22, 43, 50]).valid :=
  ⟨claim_C1.2.1 2 [1, 2, 3, 4] _ rfl,
   claim_C1.2.2.2.2.1 _ (by decide),
   claim_C1.2.2.2.2.2.1 ⟨2, 2, [1, 2, 3, 4]⟩ ⟨2, 2, [5, 6, 7, 8]⟩ _
     (by decide) (by decide) rfl,
   claim_C1.2.2.2.2.2.2 ⟨2, 2, [1, 2, 3, 4]⟩ ⟨2, 2, [5, 6, 7, 8]⟩ _
     (by decide) (by decide) rfl⟩

/-- **C2 counterexample.** The claim fails twice on the code.  First, it
says `dot` succeeds whenever `lhs.num_cols = rhs.num_rows`, but on the empty
matrix (produced by `new`, dimensions compatible: `0 = 0`) the Rust code
panics — `self.rows()` calls `data.chunks(0)`, which panics unconditionally.
Second, the element formula is asserted in exact arithmetic, but the `i32`
products and sums wrap: `[[65536]] · [[65536]]` yields `[[0]]`, not
`[[65536 * 65536]]` (a debug build would panic instead). -/
theorem claim_C2_counterexample :
    Matrix.new.valid ∧ Matrix.new.num_cols = Matrix.new.num_rows ∧
    Matrix.dot Matrix.new Matrix.new = none ∧
    (Matrix.mk 1 1 [65536]).valid ∧
    (∀ x ∈ (Matrix.mk 1 1 [65536]).data, -(2 ^ 31) ≤ x ∧ x ≤ 2 ^ 31 - 1) ∧
    Matrix.dot (Matrix.mk 1 1 [65536]) (Matrix.mk 1 1 [65536]) =
      some (.ok (Matrix.mk 1 1 [0])) ∧
    (0 : Int) ≠ 65536 * 65536 :=
  ⟨by decide, rfl, rfl, by decide, by decide, rfl, by decide⟩

/-- **C2 (amended).** `dot(lhs, rhs)` fails with a `DimensionError` reporting
both values exactly when `lhs.num_cols ≠ rhs.num_rows`.  Otherwise, provided
`lhs.num_cols > 0`, it succeeds, the result has dimensions
`(lhs.num_rows, rhs.num_cols)`, and the element at `(i, j)` is the sum over
`k < lhs.num_cols` of `lhs[i][k] * rhs[k][j]` computed in the element type's
wrapping 32-bit arithmetic — that is, `wrap32` of the exact sum — and equals
the exact sum whenever that sum lies in the `i32` range; when the check
passes with `lhs.num_cols = 0` the code panics in `rows()` (`chunks(0)`). -/
theorem claim_C2 (lhs rhs : Matrix) (hvl : lhs.valid) (hvr : rhs.valid) :
    (lhs.num_cols ≠ rhs.num_rows →
      Matrix.dot lhs rhs = some (.error (dotMsg lhs.num_cols rhs.num_rows))) ∧
    (lhs.num_cols = rhs.num_rows → 0 < lhs.num_cols →
      ∃ m, Matrix.dot lhs rhs = some (.ok m) ∧
        m.num_rows = lhs.num_rows ∧ m.num_cols = rhs.num_cols ∧ m.valid ∧
        ∀ i j, i < lhs.num_rows → j < rhs.num_cols →
          m.data.getD (i * rhs.num_cols + j) 0 =
            wrap32 (((List.range lhs.num_cols).map
              (fun k => lhs.data.getD (i * lhs.num_cols + k) 0 *
                        rhs.data.getD (k * rhs.num_cols + j) 0)).sum) ∧
          (-(2 ^ 31) ≤ ((List.range lhs.num_cols).map
              (fun k => lhs.data.getD (i * lhs.num_cols + k) 0 *
                        rhs.data.getD (k * rhs.num_cols + j) 0)).sum →
           ((List.range lhs.num_cols).map
              (fun k => lhs.data.getD (i * lhs.num_cols + k) 0 *
                        rhs.data.getD (k * rhs.num_cols + j) 0)).sum ≤ 2 ^ 31 - 1 →
           m.data.getD (i * rhs.num_cols + j) 0 =
             ((List.range lhs.num_cols).map
               (fun k => lhs.data.getD (i * lhs.num_cols + k) 0 *
                         rhs.data.getD (k * rhs.num_cols + j) 0)).sum)) ∧
    (lhs.num_cols = rhs.num_rows → lhs.num_cols = 0 →
      Matrix.dot lhs rhs = none) := by
  refine ⟨?_, ?_, ?_⟩
  · intro hne
    unfold Matrix.dot
    rw [if_pos hne]
  · intro hdim hk
    refine ⟨⟨lhs.num_rows, rhs.num_cols,
      lhs.rows.flatMap
        (fun m1_row => rhs.transpose.rows.map (fun m2_row => sumProd m1_row m2_row))⟩,
      ?eq, rfl, rfl, ?val, ?elts⟩
    case eq =>
      unfold Matrix.dot
      rw [if_neg (by simpa using hdim), if_neg (by omega)]
    case val =>
      apply dot_valid hvl hvr
      unfold Matrix.dot
      rw [if_neg (by simpa using hdim), if_neg (by omega)]
    case elts =>
      intro i j hi hj
      have hd := dot_getD hvl hvr hdim hk hi hj
      exact ⟨hd, fun hlo hhi => by rw [hd, wrap32_eq_self hlo hhi]⟩
  · intro hdim hz
    unfold Matrix.dot
    rw [if_neg (by simpa using hdim), if_pos hz]

/-- Witness for the amended C2: the dimension-mismatch error, the spec's
concrete product `[[1,2],[3,4]] · [[5,6],[7,8]] = [[19,22],[43,50]]`, and the
panic case. -/
theorem claim_C2_witness :
    Matrix.dot (Matrix.mk 2 3 [1, 2, 3, 4, 5, 6]) (Matrix.mk 2 2 [5, 6, 7, 8]) =
      some (.error (dotMsg 3 2)) ∧
    Matrix.from_2d [[1, 2], [3, 4]] = .ok (Matrix.mk 2 2 [1, 2, 3, 4]) ∧
    Matrix.from_2d [[5, 6], [7, 8]] = .ok (Matrix.mk 2 2 [5, 6, 7, 8]) ∧
    (∃ m, Matrix.dot (Matrix.mk 2 2 [1, 2, 3, 4]) (Matrix.mk 2 2 [5, 6, 7, 8]) =
        some (.ok m) ∧
      m.num_rows = 2 ∧ m.num_cols = 2 ∧ m.valid ∧
      ∀ i j, i < 2 → j < 2 →
        m.data.getD (i * 2 + j) 0 =
          wrap32 (((List.range 2).map
            (fun k => (Matrix.mk 2 2 [1, 2, 3, 4]).data.getD (i * 2 + k) 0 *
                      (Matrix.mk 2 2 [5, 6, 7, 8]).data.getD (k * 2 + j) 0)).sum) ∧
        (-(2 ^ 31) ≤ ((List.range 2).map
            (fun k => (Matrix.mk 2 2 [1, 2, 3, 4]).data.getD (i * 2 + k) 0 *
                      (Matrix.mk 2 2 [5, 6, 7, 8]).data.getD (k * 2 + j) 0)).sum →
         ((List.range 2).map
            (fun k => (Matrix.mk 2 2 [1, 2, 3, 4]).data.getD (i * 2 + k) 0 *
                      (Matrix.mk 2 2 [5, 6, 7, 8]).data.getD (k * 2 + j) 0)).sum ≤ 2 ^ 31 - 1 →
         m.data.getD (i * 2 + j) 0 =
           ((List.range 2).map
             (fun k => (Matrix.mk 2 2 [1, 2, 3, 4]).data.getD (i * 2 + k) 0 *
                       (Matrix.mk 2 2 [5, 6, 7, 8]).data.getD (k * 2 + j) 0)).sum)) ∧
    Matrix.dot (Matrix.mk 2 2 [1, 2, 3, 4]) (Matrix.mk 2 2 [5, 6, 7, 8]) =
      some (.ok (Matrix.mk 2 2 [19, 22, 43, 50])) ∧
    Matrix.dot (Matrix.mk 3 0 []) Matrix.new = none :=
  ⟨(claim_C2 _ _ (by decide) (by decide)).1 (by decide),
   rfl, rfl,
   (claim_C2 _ _ (by decide) (by decide)).2.1 rfl (by decide),
   rfl,
   (claim_C2 (Matrix.mk 3 0 []) Matrix.new (by decide) (by decide)).2.2 rfl rfl⟩

/-- **C3 counterexample.** The claim asserts each result element is the
(exact) pairwise sum, but `i32` addition wraps: on the valid `1 × 1`
matrices holding `2147483647` (`i32::MAX`, in range) the program produces
`-2`, not `4294967294` (a debug build would panic instead). -/
theorem claim_C3_counterexample :
    (Matrix.mk 1 1 [2147483647]).valid ∧
    (∀ x ∈ (Matrix.mk 1 1 [2147483647]).data, -(2 ^ 31) ≤ x ∧ x ≤ 2 ^ 31 - 1) ∧
    Matrix.add (Matrix.mk 1 1 [2147483647]) (Matrix.mk 1 1 [2147483647]) =
      .ok (Matrix.mk 1 1 [-2]) ∧
    ((-2 : Int) ≠ 2147483647 + 2147483647) :=
  ⟨by decide, by decide, rfl, by decide⟩

/-- **C3 (amended).** `add(lhs, rhs)` fails with a `DimensionError` reporting
both dimension pairs exactly when `lhs.dims ≠ rhs.dims`; otherwise it
succeeds with a matrix of the same dimensions in which each element is the
pairwise sum of the corresponding elements, computed in the element type's
wrapping 32-bit arithmetic — that is, `wrap32` of the exact sum — and equals
the exact pairwise sum whenever that sum lies in the `i32` range. -/
theorem claim_C3 (lhs rhs : Matrix) (hvl : lhs.valid) (hvr : rhs.valid) :
    (lhs.dims ≠ rhs.dims →
      Matrix.add lhs rhs =
        .error (addMsg lhs.num_rows lhs.num_cols rhs.num_rows rhs.num_cols)) ∧
    (lhs.dims = rhs.dims →
      ∃ m, Matrix.add lhs rhs = .ok m ∧
        m.num_rows = lhs.num_rows ∧ m.num_cols = lhs.num_cols ∧ m.valid ∧
        ∀ i, i < lhs.num_rows * lhs.num_cols →
          m.data.getD i 0 = wrap32 (lhs.data.getD i 0 + rhs.data.getD i 0) ∧
          (-(2 ^ 31) ≤ lhs.data.getD i 0 + rhs.data.getD i 0 →
           lhs.data.getD i 0 + rhs.data.getD i 0 ≤ 2 ^ 31 - 1 →
           m.data.getD i 0 = lhs.data.getD i 0 + rhs.data.getD i 0)) := by
  constructor
  · intro hne
    have hor : lhs.num_rows ≠ rhs.num_rows ∨ lhs.num_cols ≠ rhs.num_cols := by
      by_contra hcon
      push_neg at hcon
      exact hne (by simp [Matrix.dims, hcon.1, hcon.2])
    unfold Matrix.add
    rw [if_pos hor]
  · intro heq
    have hrr : lhs.num_rows = rhs.num_rows := congrArg Prod.fst heq
    have hcc : lhs.num_cols = rhs.num_cols := congrArg Prod.snd heq
    have hok : Matrix.add lhs rhs =
        .ok ⟨lhs.num_rows, lhs.num_cols,
          (lhs.data.zip rhs.data).map (fun p => wrap32 (p.1 + p.2))⟩ := by
      unfold Matrix.add
      rw [if_neg (by push_neg; exact ⟨hrr, hcc⟩)]
    refine ⟨_, hok, rfl, rfl, add_valid hvl hvr hok, ?_⟩
    intro i hi
    have hd := zip_map_add_getD lhs.data rhs.data i (by rw [hvl]; exact hi)
      (by rw [hvr, ← hrr, ← hcc]; exact hi)
    exact ⟨hd, fun hlo hhi => by rw [hd, wrap32_eq_self hlo hhi]⟩

/-- Witness for the amended C3: a mismatched pair errors with the exact
message, and the spec's example `[[1,2],[3,4]] + [[1,2],[3,4]]` succeeds
elementwise (in-range, hence exact). -/
theorem claim_C3_witness :
    Matrix.add (Matrix.mk 2 2 [1, 2, 3, 4]) (Matrix.mk 2 3 [1, 2, 3, 4, 5, 6]) =
      .error (addMsg 2 2 2 3) ∧
    (∃ m, Matrix.add (Matrix.mk 2 2 [1, 2, 3, 4]) (Matrix.mk 2 2 [1, 2, 3, 4]) = .ok m ∧
      m.num_rows = 2 ∧ m.num_cols = 2 ∧ m.valid ∧
      ∀ i, i < 2 * 2 →
        m.data.getD i 0 = wrap32 ((Matrix.mk 2 2 [1, 2, 3, 4]).data.getD i 0 +
          (Matrix.mk 2 2 [1, 2, 3, 4]).data.getD i 0) ∧
        (-(2 ^ 31) ≤ (Matrix.mk 2 2 [1, 2, 3, 4]).data.getD i 0 +
          (Matrix.mk 2 2 [1, 2, 3, 4]).data.getD i 0 →
         (Matrix.mk 2 2 [1, 2, 3, 4]).data.getD i 0 +
          (Matrix.mk 2 2 [1, 2, 3, 4]).data.getD i 0 ≤ 2 ^ 31 - 1 →
         m.data.getD i 0 = (Matrix.mk 2 2 [1, 2, 3, 4]).data.getD i 0 +
          (Matrix.mk 2 2 [1, 2, 3, 4]).data.getD i 0)) ∧
    Matrix.add (Matrix.mk 2 2 [1, 2, 3, 4]) (Matrix.mk 2 2 [1, 2, 3, 4]) =
      .ok (Matrix.mk 2 2 [2, 4, 6, 8]) :=
  ⟨(claim_C3 _ _ (by decide) (by decide)).1 (by decide),
   (claim_C3 _ _ (by decide) (by decide)).2 rfl,
   rfl⟩

/-- **C4.** `transpose` always succeeds (it is total in the model), swaps
the dimensions, satisfies `new[c][r] = old[r][c]` in row-major indexing, and
maps the empty matrix to the empty matrix. -/
theorem claim_C4 (m : Matrix) (hv : m.valid) :
    m.transpose.num_rows = m.num_cols ∧
    m.transpose.num_cols = m.num_rows ∧
    m.transpose.valid ∧
    (∀ r c, r < m.num_rows → c < m.num_cols →
      m.transpose.data.getD (c * m.num_rows + r) 0 =
        m.data.getD (r * m.num_cols + c) 0) ∧
    (m = Matrix.new → m.transpose = Matrix.new) :=
  ⟨rfl, rfl, Matrix.transpose_valid hv,
   fun _ _ hr hc => Matrix.transpose_getD hv hr hc,
   fun h => by subst h; rfl⟩

/-- Witness for C4 at a concrete `2 × 3` matrix and at the empty matrix. -/
theorem claim_C4_witness :
    (Matrix.mk 2 3 [1, 2, 3, 4, 5, 6]).transpose.data.getD (0 * 2 + 1) 0 =
      (Matrix.mk 2 3 [1, 2, 3, 4, 5, 6]).data.getD (1 * 3 + 0) 0 ∧
    (Matrix.mk 2 3 [1, 2, 3, 4, 5, 6]).transpose = Matrix.mk 3 2 [1, 4, 2, 5, 3, 6] ∧
    Matrix.new.transpose = Matrix.new :=
  ⟨(claim_C4 ⟨2, 3, [1, 2, 3, 4, 5, 6]⟩ (by decide)).2.2.2.1 1 0 (by decide) (by decide),
   rfl,
   (claim_C4 Matrix.new (by decide)).2.2.2.2 rfl⟩

/-- **C5.** For every valid matrix, the double transpose is the matrix
itself, with the same dimensions and the same row-major data. -/
theorem claim_C5 (m : Matrix) (hv : m.valid) : m.transpose.transpose = m :=
  Matrix.transpose_transpose hv

/-- Witness for C5 at a concrete `2 × 3` matrix. -/
theorem claim_C5_witness :
    (Matrix.mk 2 3 [1, 2, 3, 4, 5, 6]).transpose.transpose =
      Matrix.mk 2 3 [1, 2, 3, 4, 5, 6] :=
  claim_C5 _ (by decide)

/-! ## Column means: wrap-around arithmetic and exactness -/

theorem wrap64_add_left (a b : Int) : wrap64 (wrap64 a + b) = wrap64 (a + b) := by
  unfold wrap64
  have h1 : (a + 2 ^ 63) % 2 ^ 64 - 2 ^ 63 + b + 2 ^ 63 = (a + 2 ^ 63) % 2 ^ 64 + b := by
    ring
  rw [h1, Int.emod_add_emod]
  have h2 : a + 2 ^ 63 + b = a + b + 2 ^ 63 := by ring
  rw [h2]

theorem isizeSum_eq (l : List Int) : isizeSum l = wrap64 l.sum := by
  have key : ∀ (l : List Int) (a : Int),
      l.foldl (fun acc x => wrap64 (acc + x)) (wrap64 a) = wrap64 (a + l.sum) := by
    intro l
    induction l with
    | nil => intro a; simp
    | cons x xs ih =>
      intro a
      rw [List.foldl_cons, wrap64_add_left, ih (a + x), List.sum_cons]
      have : a + x + xs.sum = a + (x + xs.sum) := by ring
      rw [this]
  have h0 : wrap64 0 = 0 := by decide
  unfold isizeSum
  rw [← h0, key l 0, zero_add]

theorem wrap64_eq_self {z : Int} (h1 : -(2 ^ 63) ≤ z) (h2 : z ≤ 2 ^ 63 - 1) :
    wrap64 z = z := by
  unfold wrap64
  rw [Int.emod_eq_of_lt (by omega) (by omega)]
  ring

/-- A truncating quotient of a sum of `R` values from the `i32` range lies in
the `i32` range. -/
theorem tdiv_bound {S R : Int} (hR : 0 < R)
    (hlo : -(R * 2 ^ 31) ≤ S) (hhi : S ≤ R * (2 ^ 31 - 1)) :
    -(2 ^ 31) ≤ S.tdiv R ∧ S.tdiv R ≤ 2 ^ 31 - 1 := by
  rcases le_or_lt 0 S with hS | hS
  · rw [Int.tdiv_eq_ediv hS hR.le]
    constructor
    · have : (0 : Int) ≤ S / R := Int.ediv_nonneg hS hR.le
      omega
    · have h3 : S / R ≤ R * (2 ^ 31 - 1) / R := Int.ediv_le_ediv hR hhi
      rw [Int.mul_ediv_cancel_left _ hR.ne'] at h3
      exact h3
  · have h1 : S.tdiv R = -((-S).tdiv R) := by
      have := Int.neg_tdiv S R
      omega
    have h2 : (-S).tdiv R = (-S) / R := Int.tdiv_eq_ediv (by omega) hR.le
    constructor
    · have h3 : (-S) / R ≤ R * 2 ^ 31 / R := Int.ediv_le_ediv hR (by omega)
      rw [Int.mul_ediv_cancel_left _ hR.ne'] at h3
      omega
    · have h4 : (0 : Int) ≤ (-S) / R := Int.ediv_nonneg (by omega) hR.le
      omega

/-- The pipeline `wrap32 ((wrap64 S).tdiv R)` computes the exact truncated
quotient when the sum fits in 64 bits and the summands were `i32`s. -/
theorem meanValue_exact {S R : Int} (hR : 0 < R)
    (hlo : -(R * 2 ^ 31) ≤ S) (hhi : S ≤ R * (2 ^ 31 - 1))
    (hfit1 : -(2 ^ 63) ≤ S) (hfit2 : S ≤ 2 ^ 63 - 1) :
    wrap32 ((wrap64 S).tdiv R) = S.tdiv R := by
  rw [wrap64_eq_self hfit1 hfit2]
  obtain ⟨hq1, hq2⟩ := tdiv_bound hR hlo hhi
  exact wrap32_eq_self hq1 hq2

theorem columnOf_length (m : Matrix) (j : Nat) :
    (columnOf m j).length = m.num_rows := by
  simp [columnOf]

/-- The rows of the transpose are exactly the columns of the matrix. -/
theorem rows_transpose_eq {m : Matrix} (hv : m.valid) (hR : 0 < m.num_rows) :
    m.transpose.rows = (List.range m.num_cols).map (fun j => columnOf m j) := by
  rcases Nat.eq_zero_or_pos m.num_cols with hC | hC
  · have hdata : m.transpose.data = [] := by
      simp [Matrix.transpose, hC]
    show chunks m.transpose.num_cols m.transpose.data = _
    rw [hdata, hC]
    rfl
  · have hdata : m.transpose.data =
        ((List.range m.num_cols).map
          (fun c => m.rows.map (fun row => row.getD c 0))).flatten := by
      show (List.range m.num_cols).flatMap _ = _
      rw [List.flatMap_def]
    show chunks m.transpose.num_cols m.transpose.data = _
    rw [hdata, Matrix.transpose_num_cols,
      chunks_flatten_const hR _ ?lens]
    case lens =>
      intro b hb
      rw [List.mem_map] at hb
      obtain ⟨c, _, rfl⟩ := hb
      rw [List.length_map]
      exact Matrix.rows_length hv hC
    apply List.map_congr_left
    intro c hc
    rw [List.mem_range] at hc
    show m.rows.map _ = _
    rw [Matrix.rows, chunks_eq_map hC m.num_rows m.data hv, List.map_map]
    apply List.map_congr_left
    intro r _
    simp only [Function.comp_apply, columnOf]
    rw [getD_take _ hc, getD_drop]

/-- Closed form of `column_means` on a valid matrix with at least one row:
per column, wrap-around sum, truncating division by the row count, `as i32`
truncation of the quotient. -/
theorem column_means_eq {m : Matrix} (hv : m.valid) (hR : 0 < m.num_rows) :
    m.column_means = some ((List.range m.num_cols).map
      (fun j => wrap32 ((wrap64 (columnOf m j).sum).tdiv (m.num_rows : Int)))) := by
  unfold Matrix.column_means
  rw [if_neg (by omega), rows_transpose_eq hv hR, List.map_map]
  apply congrArg
  apply List.map_congr_left
  intro j _
  simp only [Function.comp_apply]
  rw [isizeSum_eq, columnOf_length]

/-- Every entry of a column is an entry of the data vector (or the default,
which is irrelevant for valid matrices), so `i32` bounds on the data give
bounds on the column sum. -/
theorem columnOf_sum_bounds {m : Matrix} (hv : m.valid)
    (hrange : ∀ x ∈ m.data, -(2 ^ 31) ≤ x ∧ x ≤ 2 ^ 31 - 1) {j : Nat}
    (hj : j < m.num_cols) :
    -((m.num_rows : Int) * 2 ^ 31) ≤ (columnOf m j).sum ∧
      (columnOf m j).sum ≤ (m.num_rows : Int) * (2 ^ 31 - 1) := by
  have hmem : ∀ x ∈ columnOf m j, -(2 ^ 31) ≤ x ∧ x ≤ 2 ^ 31 - 1 := by
    intro x hx
    rw [columnOf, List.mem_map] at hx
    obtain ⟨r, hr, rfl⟩ := hx
    rw [List.mem_range] at hr
    have hstep : (r + 1) * m.num_cols ≤ m.num_rows * m.num_cols :=
      Nat.mul_le_mul_right _ hr
    rw [Nat.succ_mul] at hstep
    have hidx : r * m.num_cols + j < m.data.length := by rw [hv]; omega
    rw [List.getD_eq_getElem _ _ hidx]
    exact hrange _ (List.getElem_mem ..)
  constructor
  · have h := List.card_nsmul_le_sum (columnOf m j) (-(2 ^ 31) : Int)
      (fun x hx => (hmem x hx).1)
    rw [columnOf_length, nsmul_eq_mul] at h
    linarith
  · have h := List.sum_le_card_nsmul (columnOf m j) ((2 ^ 31 - 1) : Int)
      (fun x hx => (hmem x hx).2)
    rw [columnOf_length, nsmul_eq_mul] at h
    linarith

/-! ## Claims C6 and C10 -/

/-- **C6 counterexample.** The claim asserts the returned mean is always the
truncating division of the column sum by `num_rows`, but the accumulator is a
64-bit `isize`: on the valid `2^34 × 1` matrix whose entries are all `2^30`
(each in `i32` range) the exact column sum `2^64` wraps to `0`, so
`column_means` returns `[0]` while the truncated exact mean is `2^30`. -/
theorem claim_C6_counterexample :
    (Matrix.mk (2 ^ 34) 1 (List.replicate (2 ^ 34) (2 ^ 30 : Int))).valid ∧
    0 < (Matrix.mk (2 ^ 34) 1 (List.replicate (2 ^ 34) (2 ^ 30 : Int))).num_rows ∧
    (∀ x ∈ (Matrix.mk (2 ^ 34) 1 (List.replicate (2 ^ 34) (2 ^ 30 : Int))).data,
      -(2 ^ 31) ≤ x ∧ x ≤ 2 ^ 31 - 1) ∧
    (Matrix.mk (2 ^ 34) 1 (List.replicate (2 ^ 34) (2 ^ 30 : Int))).column_means =
      some [0] ∧
    ((columnOf (Matrix.mk (2 ^ 34) 1 (List.replicate (2 ^ 34) (2 ^ 30 : Int))) 0).sum.tdiv
      (((2 : Nat) ^ 34 : Nat) : Int) = 2 ^ 30) ∧
    (0 : Int) ≠ 2 ^ 30 := by
  have hv : (Matrix.mk (2 ^ 34) 1 (List.replicate (2 ^ 34) (2 ^ 30 : Int))).valid := by
    show (List.replicate (2 ^ 34) (2 ^ 30 : Int)).length = 2 ^ 34 * 1
    rw [List.length_replicate, Nat.mul_one]
  have hcol : columnOf (Matrix.mk (2 ^ 34) 1 (List.replicate (2 ^ 34) (2 ^ 30 : Int))) 0 =
      List.replicate (2 ^ 34) (2 ^ 30 : Int) := by
    rw [List.eq_replicate_iff]
    constructor
    · rw [columnOf_length]
    · intro b hb
      rw [columnOf, List.mem_map] at hb
      obtain ⟨r, hr, rfl⟩ := hb
      rw [List.mem_range] at hr
      have hr' : r < 2 ^ 34 := hr
      have hidx : r * 1 + 0 < (List.replicate (2 ^ 34) (2 ^ 30 : Int)).length := by
        rw [List.length_replicate]; omega
      rw [List.getD_eq_getElem _ _ hidx, List.getElem_replicate]
  have hsum : (columnOf (Matrix.mk (2 ^ 34) 1 (List.replicate (2 ^ 34) (2 ^ 30 : Int))) 0).sum =
      2 ^ 64 := by
    rw [hcol, List.sum_replicate, nsmul_eq_mul]
    norm_num
  refine ⟨hv, by norm_num, ?_, ?_, ?_, by norm_num⟩
  · intro x hx
    rw [List.eq_of_mem_replicate hx]
    norm_num
  · rw [column_means_eq hv (by norm_num)]
    have hrange1 : List.range 1 = [0] := rfl
    rw [hrange1, List.map_cons, List.map_nil]
    rw [hsum]
    rw [show wrap64 ((2 : Int) ^ 64) = 0 from by decide, Int.zero_tdiv,
      show wrap32 0 = 0 from by decide]
  · rw [hsum]
    decide

/-- **C6 (amended).** For every valid `i32` matrix with at least one row,
provided each column's exact sum fits in the 64-bit `isize` range,
`column_means` returns one value per column, in column order, namely the sum
of that column's elements divided by `num_rows` with truncating integer
division (without the proviso, the `isize` accumulation wraps; see the
counterexample). -/
theorem claim_C6 (m : Matrix) (hv : m.valid) (hR : 0 < m.num_rows)
    (hrange : ∀ x ∈ m.data, -(2 ^ 31) ≤ x ∧ x ≤ 2 ^ 31 - 1)
    (hfit : ∀ j, j < m.num_cols →
      -(2 ^ 63) ≤ (columnOf m j).sum ∧ (columnOf m j).sum ≤ 2 ^ 63 - 1) :
    m.column_means = some ((List.range m.num_cols).map
      (fun j => (columnOf m j).sum.tdiv (m.num_rows : Int))) := by
  rw [column_means_eq hv hR]
  apply congrArg
  apply List.map_congr_left
  intro j hj
  rw [List.mem_range] at hj
  obtain ⟨h1, h2⟩ := columnOf_sum_bounds hv hrange hj
  obtain ⟨h3, h4⟩ := hfit j hj
  exact meanValue_exact (by exact_mod_cast hR) h1 h2 h3 h4

/-- Witness for the amended C6: the spec's example
`from_2d([[1,2,3],[4,5,6]]).column_means() == [2,3,4]`. -/
theorem claim_C6_witness :
    (Matrix.mk 2 3 [1, 2, 3, 4, 5, 6]).column_means =
      some ((List.range 3).map
        (fun j => (columnOf (Matrix.mk 2 3 [1, 2, 3, 4, 5, 6]) j).sum.tdiv 2)) ∧
    (Matrix.mk 2 3 [1, 2, 3, 4, 5, 6]).column_means = some [2, 3, 4] :=
  ⟨claim_C6 _ (by decide) (by decide) (by decide) (by decide), rfl⟩

/-- **C10.** `column_means` accumulates each column in the wider `isize`
type and only casts the quotient back to `i32`: whenever the column's exact
sum fits in `isize`, the returned mean is the exact truncated integer mean,
even when the intermediate sum lies outside the `i32` range. -/
theorem claim_C10 (m : Matrix) (hv : m.valid) (hR : 0 < m.num_rows)
    (hrange : ∀ x ∈ m.data, -(2 ^ 31) ≤ x ∧ x ≤ 2 ^ 31 - 1)
    {j : Nat} (hj : j < m.num_cols)
    (hfit1 : -(2 ^ 63) ≤ (columnOf m j).sum)
    (hfit2 : (columnOf m j).sum ≤ 2 ^ 63 - 1) :
    ∃ ms, m.column_means = some ms ∧
      ms.getD j 0 = (columnOf m j).sum.tdiv (m.num_rows : Int) := by
  refine ⟨_, column_means_eq hv hR, ?_⟩
  rw [getD_map_range _ hj]
  obtain ⟨h1, h2⟩ := columnOf_sum_bounds hv hrange hj
  exact meanValue_exact (by exact_mod_cast hR) h1 h2 hfit1 hfit2

/-- Witness for C10: the column `[2^30, 2^30]` has exact sum `2^31`, outside
the `i32` range, yet the mean comes out exactly `2^30`. -/
theorem claim_C10_witness :
    (∃ ms, (Matrix.mk 2 1 [2 ^ 30, 2 ^ 30]).column_means = some ms ∧
      ms.getD 0 0 = (columnOf (Matrix.mk 2 1 [2 ^ 30, 2 ^ 30]) 0).sum.tdiv 2) ∧
    (Matrix.mk 2 1 [2 ^ 30, 2 ^ 30]).column_means = some [2 ^ 30] ∧
    (columnOf (Matrix.mk 2 1 [2 ^ 30, 2 ^ 30]) 0).sum = 2 ^ 31 ∧
    ¬((2 : Int) ^ 31 ≤ 2 ^ 31 - 1) :=
  ⟨claim_C10 _ (by decide) (by decide) (by decide)
      (show (0 : Nat) < 1 from by decide) (by decide) (by decide),
   by decide, by decide, by decide⟩

/-! ## Decimal printing and parsing round-trip -/

/-- Value of a little-endian digit list (proof-side helper). -/
def valLE (ds : List Nat) : Nat := ds.foldr (fun d acc => d + 10 * acc) 0

theorem digitsF_lt_ten : ∀ (f n : Nat), ∀ d ∈ digitsF f n, d < 10 := by
  intro f
  induction f with
  | zero => intro n d hd; simp [digitsF] at hd
  | succ f ih =>
    intro n d hd
    rw [digitsF] at hd
    split at hd
    · simp at hd
    · rcases List.mem_cons.mp hd with h | h
      · subst h; exact Nat.mod_lt _ (by omega)
      · exact ih _ _ h

theorem valLE_digitsF : ∀ (f n : Nat), n ≤ f → valLE (digitsF f n) = n := by
  intro f
  induction f with
  | zero => intro n hn; interval_cases n; simp [digitsF, valLE]
  | succ f ih =>
    intro n hn
    rw [digitsF]
    split
    · rename_i h; subst h; simp [valLE]
    · rename_i h
      have hdiv : n / 10 ≤ f := by omega
      show (n % 10) + 10 * valLE (digitsF f (n / 10)) = n
      rw [ih _ hdiv]
      omega

theorem digit_char_val : ∀ d, d < 10 → charVal (Nat.digitChar d) = d := by decide

theorem digit_char_isDigit : ∀ d, d < 10 → isDigitChar (Nat.digitChar d) = true := by decide

theorem digit_char_not_ws : ∀ d, d < 10 → isWs (Nat.digitChar d) = false := by decide

theorem foldl_parse_digits :
    ∀ (ds : List Nat) (a : Nat), (∀ d ∈ ds, d < 10) →
      ((ds.map Nat.digitChar).reverse).foldl (fun acc c => 10 * acc + charVal c) a =
        a * 10 ^ ds.length + valLE ds := by
  intro ds
  induction ds with
  | nil => intro a _; simp [valLE]
  | cons d rest ih =>
    intro a hds
    rw [List.map_cons, List.reverse_cons, List.foldl_append]
    rw [ih a (fun x hx => hds x (by simp [hx]))]
    show 10 * (a * 10 ^ rest.length + valLE rest) + charVal (Nat.digitChar d) = _
    rw [digit_char_val d (hds d (by simp))]
    show _ = a * 10 ^ (rest.length + 1) + (d + 10 * valLE rest)
    ring

theorem natStr_ne_nil (n : Nat) : natStr n ≠ [] := by
  unfold natStr
  split
  · simp
  · rename_i h
    obtain ⟨f, rfl⟩ : ∃ f, n = f + 1 := ⟨n - 1, by omega⟩
    rw [digitsF]
    rw [if_neg (by omega)]
    simp

theorem natStr_all_digits (n : Nat) : ∀ c ∈ natStr n, isDigitChar c = true := by
  unfold natStr
  split
  · intro c hc; simp at hc; subst hc; decide
  · intro c hc
    rw [List.mem_reverse, List.mem_map] at hc
    obtain ⟨d, hd, rfl⟩ := hc
    exact digit_char_isDigit d (digitsF_lt_ten _ _ d hd)

theorem natStr_not_ws (n : Nat) : ∀ c ∈ natStr n, isWs c = false := by
  unfold natStr
  split
  · intro c hc; simp at hc; subst hc; decide
  · intro c hc
    rw [List.mem_reverse, List.mem_map] at hc
    obtain ⟨d, hd, rfl⟩ := hc
    exact digit_char_not_ws d (digitsF_lt_ten _ _ d hd)

theorem parseNat_natStr (n : Nat) : parseNat (natStr n) = some n := by
  unfold parseNat
  rw [if_neg (by simpa using natStr_ne_nil n)]
  rw [if_pos (by rw [List.all_eq_true]; exact natStr_all_digits n)]
  unfold natStr
  split
  · rename_i h; subst h; rfl
  · rw [foldl_parse_digits _ 0 (digitsF_lt_ten n n)]
    rw [valLE_digitsF n n le_rfl]
    simp

theorem isDigitChar_ne_sign {c : Char} (h : isDigitChar c = true) :
    c ≠ '-' ∧ c ≠ '+' := by
  unfold isDigitChar at h
  constructor
  · intro hc; subst hc; simp at h
  · intro hc; subst hc; simp at h

/-- `i32::to_string` followed by `i32::from_str` is the identity on the
`i32` range. -/
theorem parseI32_intToStr {x : Int} (h1 : -(2 ^ 31) ≤ x) (h2 : x ≤ 2 ^ 31 - 1) :
    parseI32 (intToStr x) = some x := by
  unfold intToStr
  split
  · rename_i hneg
    show parseI32 ('-' :: natStr x.natAbs) = some x
    rw [parseI32, if_pos rfl, parseNat_natStr, Option.some_bind]
    rw [if_pos (by
      have := Int.ofNat_natAbs_of_nonpos hneg.le
      omega)]
    exact congrArg some (by
      have := Int.ofNat_natAbs_of_nonpos hneg.le
      omega)
  · rename_i hpos
    push_neg at hpos
    obtain ⟨c, rest, hc⟩ := List.exists_cons_of_ne_nil (natStr_ne_nil x.natAbs)
    have hcd : isDigitChar c = true := by
      apply natStr_all_digits
      rw [hc]
      simp
    obtain ⟨hm, hp⟩ := isDigitChar_ne_sign hcd
    show parseI32 (natStr x.natAbs) = some x
    rw [hc, parseI32, if_neg (by simpa using hm), if_neg (by simpa using hp), ← hc,
      parseNat_natStr, Option.some_bind]
    rw [if_pos (by
      have := Int.natAbs_of_nonneg hpos
      omega)]
    exact congrArg some (by
      have := Int.natAbs_of_nonneg hpos
      omega)

theorem intToStr_ne_nil (x : Int) : intToStr x ≠ [] := by
  unfold intToStr
  split
  · simp
  · exact natStr_ne_nil _

theorem intToStr_not_ws (x : Int) : ∀ c ∈ intToStr x, isWs c = false := by
  unfold intToStr
  split
  · intro c hc
    rcases List.mem_cons.mp hc with h | h
    · subst h; decide
    · exact natStr_not_ws _ c h
  · exact natStr_not_ws _

/-! ## Splitting, joining and line lemmas -/

theorem splitP_ne_nil (p : Char → Bool) : ∀ l, splitP p l ≠ [] := by
  intro l
  induction l with
  | nil => simp [splitP]
  | cons c cs ih =>
    simp only [splitP]
    split <;> simp

theorem splitP_no_sep (p : Char → Bool) :
    ∀ l, (∀ c ∈ l, p c = false) → splitP p l = [l] := by
  intro l
  induction l with
  | nil => intro; rfl
  | cons c cs ih =>
    intro h
    simp only [splitP]
    rw [ih (fun x hx => h x (by simp [hx]))]
    rw [if_neg (by simp [h c (by simp)])]
    rfl

theorem splitP_append_sep (p : Char → Bool) {x : Char} (hx : p x = true) :
    ∀ (t r : List Char), (∀ c ∈ t, p c = false) →
      splitP p (t ++ x :: r) = t :: splitP p r := by
  intro t
  induction t with
  | nil =>
    intro r _
    show splitP p (x :: r) = [] :: splitP p r
    simp only [splitP]
    rw [if_pos hx]
  | cons c t' ih =>
    intro r h
    have hc : p c = false := h c (by simp)
    show splitP p (c :: (t' ++ x :: r)) = (c :: t') :: splitP p r
    simp only [splitP]
    rw [if_neg (by simp [hc]), ih r (fun d hd => h d (by simp [hd]))]
    simp

theorem words_single (t : List Char) (ht : t ≠ []) (hws : ∀ c ∈ t, isWs c = false) :
    words t = [t] := by
  unfold words
  rw [splitP_no_sep isWs t hws]
  simp [ht]

theorem words_joinSep :
    ∀ toks, toks ≠ [] → (∀ t ∈ toks, t ≠ [] ∧ ∀ c ∈ t, isWs c = false) →
      words (joinSep toks) = toks := by
  intro toks
  induction toks with
  | nil => intro h; exact absurd rfl h
  | cons t ts ih =>
    intro _ h
    cases ts with
    | nil =>
      show words (joinSep [t]) = [t]
      exact words_single t (h t (by simp)).1 (h t (by simp)).2
    | cons t2 ts' =>
      show words (t ++ '\t' :: joinSep (t2 :: ts')) = t :: t2 :: ts'
      unfold words
      rw [splitP_append_sep isWs (x := '\t') (by decide) t _ (h t (by simp)).2]
      rw [List.filter_cons, if_pos (by simp [(h t (by simp)).1])]
      have hrec := ih (by simp) (fun u hu => h u (by simp [hu]))
      unfold words at hrec
      rw [hrec]

theorem takeWhile_middle {p : Char → Bool} {x : Char} (hx : p x = false) :
    ∀ (l r : List Char), (∀ c ∈ l, p c = true) →
      (l ++ x :: r).takeWhile p = l ∧ (l ++ x :: r).dropWhile p = x :: r := by
  intro l
  induction l with
  | nil =>
    intro r _
    constructor
    · show (x :: r).takeWhile p = []
      simp [List.takeWhile_cons, hx]
    · show (x :: r).dropWhile p = x :: r
      simp [List.dropWhile_cons, hx]
  | cons c l' ih =>
    intro r h
    have hc : p c = true := h c (by simp)
    obtain ⟨h1, h2⟩ := ih r (fun d hd => h d (by simp [hd]))
    constructor
    · show ((c :: (l' ++ x :: r)).takeWhile p) = c :: l'
      rw [List.takeWhile_cons, hc]
      simp [h1]
    · show ((c :: (l' ++ x :: r)).dropWhile p) = x :: r
      rw [List.dropWhile_cons, hc]
      simpa using h2

theorem stripCr_eq {l : List Char} (h : ('\r' : Char) ∉ l) : stripCr l = l := by
  unfold stripCr
  split
  · rename_i hl
    exfalso
    have hmem : ('\r' : Char) ∈ l.getLast? := by rw [Option.mem_def]; exact hl
    obtain ⟨hne, heq⟩ := List.mem_getLast?_eq_getLast hmem
    exact h (heq ▸ List.getLast_mem hne)
  · rfl

/-- `str::lines` recovers the lines from a newline-terminated rendering. -/
theorem rustLinesF_flatten :
    ∀ (ls : List (List Char)) (fuel : Nat),
      (∀ l ∈ ls, ∀ c ∈ l, c ≠ '\n' ∧ c ≠ '\r') →
      ((ls.map (fun l => l ++ ['\n'])).flatten).length ≤ fuel →
      rustLinesF fuel ((ls.map (fun l => l ++ ['\n'])).flatten) = ls := by
  intro ls
  induction ls with
  | nil => intro fuel _ _; cases fuel <;> rfl
  | cons l ls' ih =>
    intro fuel h hfuel
    have hflat : (((l :: ls').map (fun u => u ++ ['\n'])).flatten) =
        l ++ '\n' :: ((ls'.map (fun u => u ++ ['\n'])).flatten) := by
      rw [List.map_cons, List.flatten_cons, List.append_assoc]
      rfl
    have hall : ∀ c ∈ l, (fun ch => ch != '\n') c = true := by
      intro c hc
      have := (h l (by simp) c hc).1
      simpa using this
    obtain ⟨htake, hdrop⟩ :=
      takeWhile_middle (x := '\n') (p := fun ch => ch != '\n') (by simp) l
        ((ls'.map (fun u => u ++ ['\n'])).flatten) hall
    obtain ⟨f, rfl⟩ : ∃ f, fuel = f + 1 := by
      rw [hflat] at hfuel
      cases fuel with
      | zero => simp at hfuel
      | succ f => exact ⟨f, rfl⟩
    have hfuel' : ((ls'.map (fun u => u ++ ['\n'])).flatten).length ≤ f := by
      rw [hflat] at hfuel
      simp only [List.length_append, List.length_cons] at hfuel
      omega
    have hrec := ih f (fun u hu => h u (by simp [hu])) hfuel'
    rw [hflat]
    cases l with
    | nil =>
      show rustLinesF (f + 1) ('\n' :: _) = [] :: ls'
      rw [rustLinesF]
      rw [if_neg (by rw [show ((('\n' :: (ls'.map (fun u => u ++ ['\n'])).flatten)).dropWhile
        (fun ch => ch != '\n')) = _ from hdrop]; simp)]
      rw [show (('\n' :: (ls'.map (fun u => u ++ ['\n'])).flatten).dropWhile
          (fun ch => ch != '\n')) = '\n' :: (ls'.map (fun u => u ++ ['\n'])).flatten from hdrop]
      rw [show (('\n' :: (ls'.map (fun u => u ++ ['\n'])).flatten).takeWhile
          (fun ch => ch != '\n')) = ([] : List Char) from htake]
      rw [List.tail_cons, hrec]
      rfl
    | cons a l' =>
      rw [List.cons_append] at htake hdrop
      show rustLinesF (f + 1) (a :: (l' ++ '\n' :: _)) = (a :: l') :: ls'
      rw [rustLinesF]
      rw [if_neg (by rw [hdrop]; simp)]
      rw [hdrop, htake, List.tail_cons, hrec]
      rw [stripCr_eq (by intro hc; exact (h (a :: l') (by simp) _ hc).2 rfl)]

theorem rustLines_flatten (ls : List (List Char))
    (h : ∀ l ∈ ls, ∀ c ∈ l, c ≠ '\n' ∧ c ≠ '\r') :
    rustLines ((ls.map (fun l => l ++ ['\n'])).flatten) = ls :=
  rustLinesF_flatten ls _ h le_rfl

/-! ## `collect::<Result>` lemmas -/

theorem collectE_map_ok {α β ε : Type} (f : α → Except ε β) (h : β → α) :
    ∀ l : List β, (∀ x ∈ l, f (h x) = .ok x) → collectE f (l.map h) = .ok l := by
  intro l
  induction l with
  | nil => intro _; rfl
  | cons x xs ih =>
    intro hl
    show collectE f (h x :: xs.map h) = .ok (x :: xs)
    rw [collectE, hl x (by simp), ih (fun y hy => hl y (by simp [hy]))]

theorem collectE_ok_of {α β ε : Type} (f : α → Except ε β) (g : α → β) :
    ∀ l : List α, (∀ x ∈ l, f x = .ok (g x)) → collectE f l = .ok (l.map g) := by
  intro l
  induction l with
  | nil => intro _; rfl
  | cons x xs ih =>
    intro hl
    rw [List.map_cons, collectE, hl x (by simp), ih (fun y hy => hl y (by simp [hy]))]

/-! ## Rows as slices, rendering structure -/

theorem chunks_mem_length {n R : Nat} (hn : 0 < n) {d : List Int}
    (hlen : d.length = R * n) {row : List Int} (hrow : row ∈ chunks n d) :
    row.length = n := by
  rw [chunks_eq_map hn R d hlen] at hrow
  rw [List.mem_map] at hrow
  obtain ⟨r, hr, rfl⟩ := hrow
  rw [List.mem_range] at hr
  have h1 : (r + 1) * n ≤ R * n := Nat.mul_le_mul_right n hr
  rw [Nat.succ_mul] at h1
  simp only [List.length_take, List.length_drop]
  omega

theorem map_eq_range_getD {α β : Type} (g : α → β) (l : List α) (d : α) :
    l.map g = (List.range l.length).map (fun i => g (l.getD i d)) := by
  apply List.ext_getElem (by simp)
  intro i h1 h2
  rw [List.getElem_map, List.getElem_map, List.getElem_range]
  rw [List.getD_eq_getElem l d (by simpa using h1)]

theorem rows_map_eq {m : Matrix} (hv : m.valid) (hC : 0 < m.num_cols)
    {β : Type} (g : List Int → β) :
    m.rows.map g = (List.range m.num_rows).map
      (fun r => g ((m.data.drop (r * m.num_cols)).take m.num_cols)) := by
  rw [Matrix.rows, chunks_eq_map hC m.num_rows m.data hv, List.map_map]
  rfl

theorem joinSep_mem :
    ∀ (toks : List (List Char)) (c : Char), c ∈ joinSep toks →
      c = '\t' ∨ ∃ t ∈ toks, c ∈ t
  | [], c, hc => by simp [joinSep] at hc
  | [t], c, hc => Or.inr ⟨t, by simp, by simpa [joinSep] using hc⟩
  | t1 :: t2 :: ts, c, hc => by
    rw [show joinSep (t1 :: t2 :: ts) = t1 ++ '\t' :: joinSep (t2 :: ts) from rfl] at hc
    rcases List.mem_append.mp hc with h | h
    · exact Or.inr ⟨t1, by simp, h⟩
    · rcases List.mem_cons.mp h with h' | h'
      · exact Or.inl h'
      · rcases joinSep_mem (t2 :: ts) c h' with h'' | ⟨t, ht, hct⟩
        · exact Or.inl h''
        · exact Or.inr ⟨t, by simp [ht], hct⟩

/-- `from_2d` applied to the rows of a valid nonempty matrix rebuilds it. -/
theorem from_2d_rows {m : Matrix} (hv : m.valid) (hR : 0 < m.num_rows)
    (hC : 0 < m.num_cols) : Matrix.from_2d m.rows = .ok m := by
  have hlen : m.rows.length = m.num_rows := Matrix.rows_length hv hC
  have hne : m.rows ≠ [] := by
    intro h
    rw [h] at hlen
    simp at hlen
    omega
  have hmemlen : ∀ row ∈ m.rows, row.length = m.num_cols :=
    fun row hrow => chunks_mem_length hC hv hrow
  have hhead : (m.rows.headD []).length = m.num_cols := by
    obtain ⟨r0, rest, hr0⟩ := List.exists_cons_of_ne_nil hne
    rw [hr0, List.headD_cons]
    exact hmemlen r0 (by rw [hr0]; simp)
  have hflat : m.rows.flatten = m.data := by
    rw [Matrix.rows]
    exact chunks_flatten hC m.data
  have hgoal : (if m.rows.any (fun row => row.length ≠ (m.rows.headD []).length) then
      (Except.error "Heterogeneous row length" : Except String Matrix)
    else .ok ⟨m.rows.length, (m.rows.headD []).length, m.rows.flatten⟩) = .ok m := by
    rw [if_neg (by
      simp only [List.any_eq_true, not_exists, not_and, Bool.not_eq_true, ne_eq,
        decide_not, Bool.not_eq_false', decide_eq_true_eq]
      intro row hrow
      rw [hmemlen row hrow, hhead])]
    rw [hlen, hhead, hflat]
  unfold Matrix.from_2d
  rw [if_neg (by simpa [List.isEmpty_iff] using hne)]
  exact hgoal

theorem fmtData_eq (m : Matrix) :
    fmtData m = ((m.rows.map (fun row => joinSep (row.map intToStr))).map
      (fun l => l ++ ['\n'])).flatten := by
  unfold fmtData
  rw [List.map_map]
  rfl

/-- A rendered line contains neither a newline nor a carriage return. -/
theorem line_chars {row : List Int} (c : Char)
    (hc : c ∈ joinSep (row.map intToStr)) : c ≠ '\n' ∧ c ≠ '\r' := by
  rcases joinSep_mem _ c hc with h | ⟨t, ht, hct⟩
  · subst h
    constructor <;> decide
  · rw [List.mem_map] at ht
    obtain ⟨x, _, rfl⟩ := ht
    have hws := intToStr_not_ws x c hct
    constructor
    · intro h
      subst h
      exact absurd hws (by decide)
    · intro h
      subst h
      exact absurd hws (by decide)

/-! ## Claims C7, C8, C9 -/

/-- **C7.** For every valid `i32` matrix with at least one row and one
column, parsing the text produced by formatting it returns the matrix
exactly: `parse(format(M)) = Ok(M)`, with equal dimensions and data. -/
theorem claim_C7 (m : Matrix) (hv : m.valid) (hR : 0 < m.num_rows)
    (hC : 0 < m.num_cols)
    (hrange : ∀ x ∈ m.data, -(2 ^ 31) ≤ x ∧ x ≤ 2 ^ 31 - 1) :
    toText m = some (fmtData m) ∧ fromStr (fmtData m) = .ok m := by
  constructor
  · unfold toText
    rw [if_neg (by omega)]
  · have hlines : rustLines (fmtData m) =
        m.rows.map (fun row => joinSep (row.map intToStr)) := by
      rw [fmtData_eq]
      apply rustLines_flatten
      intro l hl c hcl
      rw [List.mem_map] at hl
      obtain ⟨row, _, rfl⟩ := hl
      exact line_chars c hcl
    have hrowmem : ∀ row ∈ m.rows, ∀ x ∈ row, -(2 ^ 31) ≤ x ∧ x ≤ 2 ^ 31 - 1 := by
      intro row hrow x hx
      apply hrange
      rw [Matrix.rows, chunks_eq_map hC m.num_rows m.data hv] at hrow
      rw [List.mem_map] at hrow
      obtain ⟨r, _, rfl⟩ := hrow
      exact List.mem_of_mem_drop (List.mem_of_mem_take hx)
    have hinner : ∀ row ∈ m.rows,
        collectE parseTok (words (joinSep (row.map intToStr))) = .ok row := by
      intro row hrow
      have hrlen : row.length = m.num_cols := chunks_mem_length hC hv hrow
      have hwords : words (joinSep (row.map intToStr)) = row.map intToStr := by
        apply words_joinSep
        · intro hnil
          rw [List.map_eq_nil_iff] at hnil
          rw [hnil] at hrlen
          simp at hrlen
          omega
        · intro t ht
          rw [List.mem_map] at ht
          obtain ⟨x, _, rfl⟩ := ht
          exact ⟨intToStr_ne_nil x, intToStr_not_ws x⟩
      rw [hwords]
      apply collectE_map_ok parseTok intToStr row
      intro x hx
      obtain ⟨hx1, hx2⟩ := hrowmem row hrow x hx
      unfold parseTok
      rw [parseI32_intToStr hx1 hx2]
    have houter : collectE (fun line => collectE parseTok (words line))
        (rustLines (fmtData m)) = .ok m.rows := by
      rw [hlines]
      exact collectE_map_ok (fun line => collectE parseTok (words line))
        (fun row => joinSep (row.map intToStr)) m.rows hinner
    unfold fromStr
    rw [houter]
    show (match Matrix.from_2d m.rows with
      | .error msg => Except.error (FromStrErr.dimErr msg)
      | .ok m' => Except.ok m') = Except.ok m
    rw [from_2d_rows hv hR hC]

/-- Witness for C7: formatting then parsing the `2 × 2` matrix with data
`[1, -2, 3, 4]` reproduces it, via the theorem and concretely. -/
theorem claim_C7_witness :
    (toText (Matrix.mk 2 2 [1, -2, 3, 4]) = some (fmtData (Matrix.mk 2 2 [1, -2, 3, 4])) ∧
      fromStr (fmtData (Matrix.mk 2 2 [1, -2, 3, 4])) = .ok (Matrix.mk 2 2 [1, -2, 3, 4])) ∧
    fmtData (Matrix.mk 2 2 [1, -2, 3, 4]) = "1\t-2\n3\t4\n".toList :=
  ⟨claim_C7 _ (by decide) (by decide) (by decide) (by decide), rfl⟩

/-- **C8 counterexample.** The claim promises the empty string for a
zero-row matrix, but formatting the empty matrix (zero rows) panics:
`Display::fmt` calls `self.rows()`, i.e. `data.chunks(0)`, which panics
unconditionally. -/
theorem claim_C8_counterexample :
    Matrix.new.num_rows = 0 ∧ toText Matrix.new = none ∧
    toText Matrix.new ≠ some [] :=
  ⟨rfl, rfl, by decide⟩

/-- **C8 (amended).** For every valid matrix with `num_cols > 0`, `to_text`
renders each row as its elements' decimal forms joined by a tab, with a
newline after every row including the final one, and a zero-row matrix
yields the empty string; when `num_cols = 0` (which includes the empty
matrix) the code panics in `rows()` (`chunks(0)`) instead. -/
theorem claim_C8 (m : Matrix) (hv : m.valid) :
    (0 < m.num_cols → toText m = some (((List.range m.num_rows).map (fun r =>
      joinSep ((List.range m.num_cols).map
        (fun c => intToStr (m.data.getD (r * m.num_cols + c) 0))) ++ ['\n'])).flatten)) ∧
    (0 < m.num_cols → m.num_rows = 0 → toText m = some []) ∧
    (m.num_cols = 0 → toText m = none) := by
  refine ⟨?_, ?_, ?_⟩
  · intro hC
    unfold toText
    rw [if_neg (by omega)]
    apply congrArg
    unfold fmtData
    rw [rows_map_eq hv hC]
    apply congrArg
    apply List.map_congr_left
    intro r hr
    rw [List.mem_range] at hr
    have h1 : (r + 1) * m.num_cols ≤ m.num_rows * m.num_cols :=
      Nat.mul_le_mul_right _ hr
    rw [Nat.succ_mul] at h1
    have hlen2 : m.data.length = m.num_rows * m.num_cols := hv
    have hslice : ((m.data.drop (r * m.num_cols)).take m.num_cols).length = m.num_cols := by
      simp only [List.length_take, List.length_drop]
      omega
    rw [map_eq_range_getD intToStr _ 0, hslice]
    have hcong : ∀ i ∈ List.range m.num_cols,
        intToStr (((m.data.drop (r * m.num_cols)).take m.num_cols).getD i 0) =
          intToStr (m.data.getD (r * m.num_cols + i) 0) := by
      intro i hi
      rw [List.mem_range] at hi
      rw [getD_take _ hi, getD_drop]
    rw [List.map_congr_left hcong]
  · intro hC hR0
    unfold toText
    rw [if_neg (by omega)]
    have hdata : m.data = [] :=
      List.eq_nil_of_length_eq_zero (by rw [hv, hR0]; ring)
    apply congrArg
    unfold fmtData
    rw [Matrix.rows, hdata]
    rfl
  · intro hC0
    unfold toText
    rw [if_pos hC0]

/-- Witness for the amended C8: a concrete `2 × 2` matrix renders with tabs
and trailing newlines, and a `0 × 2` matrix renders as the empty string. -/
theorem claim_C8_witness :
    toText (Matrix.mk 2 2 [1, -2, 3, 4]) = some (((List.range 2).map (fun r =>
      joinSep ((List.range 2).map
        (fun c => intToStr ((Matrix.mk 2 2 [1, -2, 3, 4]).data.getD (r * 2 + c) 0))) ++
          ['\n'])).flatten) ∧
    toText (Matrix.mk 2 2 [1, -2, 3, 4]) = some ("1\t-2\n3\t4\n".toList) ∧
    toText (Matrix.mk 0 2 []) = some [] :=
  ⟨(claim_C8 _ (by decide)).1 (by decide), rfl,
   (claim_C8 (Matrix.mk 0 2 []) (by decide)).2.1 (by decide) rfl⟩

/-- **C9 counterexample.** The claim says any text with a blank line next to
a line containing a token fails with a `DimensionError`, but when that token
does not parse as a number the error collection short-circuits first: on
`"\nx"` the result is the numeric `ParseError` for `"x"`, not a
`DimensionError`. -/
theorem claim_C9_counterexample :
    (∃ line ∈ rustLines ("\nx".toList), words line = []) ∧
    (∃ line ∈ rustLines ("\nx".toList), words line ≠ []) ∧
    fromStr ("\nx".toList) = .error (.parseErr ['x']) ∧
    (∀ msg, FromStrErr.parseErr ['x'] ≠ FromStrErr.dimErr msg) :=
  ⟨⟨[], by decide, rfl⟩, ⟨['x'], by decide, by decide⟩, rfl,
   fun msg h => FromStrErr.noConfusion h⟩

/-- **C9 (amended).** For every input in which some line is blank (or
whitespace-only, giving a zero-length row), some other line contains a
token, and every token parses as an `i32`, `from_text` fails with the
`DimensionError` for heterogeneous row length.  (When a token fails numeric
parsing, that `ParseError` is reported instead.) -/
theorem claim_C9 (s : List Char)
    (hblank : ∃ line ∈ rustLines s, words line = [])
    (htok : ∃ line ∈ rustLines s, words line ≠ [])
    (hparse : ∀ line ∈ rustLines s, ∀ t ∈ words line, parseI32 t ≠ none) :
    fromStr s = .error (.dimErr "Heterogeneous row length") := by
  have hcoll : collectE (fun line => collectE parseTok (words line)) (rustLines s) =
      .ok ((rustLines s).map (fun line => (words line).map (fun t => (parseI32 t).getD 0))) := by
    apply collectE_ok_of
    intro line hline
    apply collectE_ok_of
    intro t ht
    have h := hparse line hline t ht
    unfold parseTok
    cases hpt : parseI32 t with
    | none => exact absurd hpt h
    | some v => rfl
  set rowsv := (rustLines s).map (fun line => (words line).map (fun t => (parseI32 t).getD 0)) with hrows
  have hfrom : Matrix.from_2d rowsv = .error "Heterogeneous row length" := by
    obtain ⟨bl, hbl, hblw⟩ := hblank
    obtain ⟨tl, htl, htlw⟩ := htok
    have hblmem : ([] : List Int) ∈ rowsv := by
      rw [hrows, List.mem_map]
      exact ⟨bl, hbl, by rw [hblw]; rfl⟩
    have htlmem : (words tl).map (fun t => (parseI32 t).getD 0) ∈ rowsv := by
      rw [hrows, List.mem_map]
      exact ⟨tl, htl, rfl⟩
    have htllen : ((words tl).map (fun t => (parseI32 t).getD 0)).length ≠ 0 := by
      rw [List.length_map]
      intro h
      exact htlw (List.eq_nil_of_length_eq_zero h)
    have hne : rowsv ≠ [] := by
      intro h
      rw [h] at hblmem
      simp at hblmem
    have hany : rowsv.any (fun row => row.length ≠ (rowsv.headD []).length) = true := by
      rw [List.any_eq_true]
      rcases Nat.eq_zero_or_pos ((rowsv.headD []).length) with hh | hh
      · refine ⟨(words tl).map (fun t => (parseI32 t).getD 0), htlmem, ?_⟩
        rw [decide_eq_true_eq, hh]
        exact htllen
      · refine ⟨[], hblmem, ?_⟩
        rw [decide_eq_true_eq, List.length_nil]
        omega
    unfold Matrix.from_2d
    rw [if_neg (by simpa [List.isEmpty_iff] using hne)]
    have hgoal : (if rowsv.any (fun row => row.length ≠ (rowsv.headD []).length) then
        (Except.error "Heterogeneous row length" : Except String Matrix)
      else .ok ⟨rowsv.length, (rowsv.headD []).length, rowsv.flatten⟩) =
        .error "Heterogeneous row length" := by
      rw [if_pos hany]
    exact hgoal
  unfold fromStr
  rw [hcoll]
  show (match Matrix.from_2d rowsv with
    | .error msg => Except.error (FromStrErr.dimErr msg)
    | .ok m' => Except.ok m') = Except.error (.dimErr "Heterogeneous row length")
  rw [hfrom]

/-- Witness for the amended C9: `"1 2\n\n3 4"` has a blank middle line, two
token lines, all tokens numeric, and parsing fails with the heterogeneous
row length error. -/
theorem claim_C9_witness :
    fromStr ("1 2\n\n3 4".toList) = .error (.dimErr "Heterogeneous row length") :=
  claim_C9 _ ⟨[], by decide, rfl⟩ ⟨"1 2".toList, by decide, by decide⟩ (by decide)

end OsMatrix
